import Mathlib

/-!
# Verification of the polymath cross-venue arbitrage scanner

A shallow embedding, in Lean 4, of the core pure logic of the `polymath`
repository (a Kalshi/Polymarket arbitrage scanner), together with theorems
checking the natural-language specification against that logic.

Embedding conventions:
* Python `float` values are modelled as `ℚ` (all arithmetic in the embedded
  code paths is exact decimal arithmetic on small literals).
* Python's built-in `round(x, n)` rounds half to even; `rhe` below models
  that tie-breaking rule exactly, and `roundTo n x` models `round(x, n)`.
* Python `dict`s (insertion-ordered, update-in-place) are modelled as
  association lists with the `dictUpd`/`dictGet` operations below.
* Network I/O, logging and wall-clock timestamps are factored out: functions
  that read HTTP responses take the already-decoded payloads as arguments,
  and functions that read the clock take the current time as an argument.
-/

namespace Polymath

/-! ## Rounding: Python's `round` (half to even) -/

/-- Round a rational to the nearest integer, ties to the even integer.
This is the rounding rule of Python's built-in `round`. -/
def rhe (q : ℚ) : ℤ :=
  if Int.fract q < 1/2 then ⌊q⌋
  else if 1/2 < Int.fract q then ⌊q⌋ + 1
  else if Even ⌊q⌋ then ⌊q⌋ else ⌊q⌋ + 1

/-- `roundTo n x` models Python `round(x, n)`. -/
def roundTo (n : ℕ) (q : ℚ) : ℚ := (rhe (q * 10 ^ n) : ℚ) / 10 ^ n

theorem rhe_intCast (n : ℤ) : rhe (n : ℚ) = n := by
  unfold rhe
  rw [Int.fract_intCast, Int.floor_intCast]
  norm_num

theorem rhe_le (q : ℚ) : (rhe q : ℚ) ≤ q + 1/2 := by
  have hf := Int.fract_nonneg q
  have hf1 := Int.fract_lt_one q
  have hfl : (⌊q⌋ : ℚ) = q - Int.fract q := by linarith [Int.floor_add_fract q]
  unfold rhe
  split_ifs with h1 h2 h3
  · rw [hfl]; linarith
  · push_cast
    rw [hfl]; linarith
  · rw [hfl]; linarith
  · push_cast
    rw [hfl]
    have : ¬ Int.fract q < 1/2 := h1
    linarith [not_lt.mp this]

theorem le_rhe (q : ℚ) : q - 1/2 ≤ (rhe q : ℚ) := by
  have hf := Int.fract_nonneg q
  have hf1 := Int.fract_lt_one q
  have hfl : (⌊q⌋ : ℚ) = q - Int.fract q := by linarith [Int.floor_add_fract q]
  unfold rhe
  split_ifs with h1 h2 h3
  · rw [hfl]; linarith [le_of_lt h1]
  · push_cast
    rw [hfl]; linarith
  · rw [hfl]
    linarith [not_lt.mp h2]
  · push_cast
    rw [hfl]; linarith

theorem rhe_nonneg {q : ℚ} (h : 0 ≤ q) : 0 ≤ rhe q := by
  have h1 := le_rhe q
  have h2 : (-1 : ℚ) < (rhe q : ℚ) := by linarith
  have h3 : (-1 : ℤ) < rhe q := by exact_mod_cast h2
  omega

theorem rhe_le_of_le_int {q : ℚ} {N : ℤ} (h : q ≤ N) : rhe q ≤ N := by
  have h1 := rhe_le q
  have h2 : (rhe q : ℚ) < (N : ℚ) + 1 := by linarith
  have h3 : rhe q < N + 1 := by exact_mod_cast h2
  omega

/-- The rounded value differs from the input by at most half a unit in the
last place. -/
theorem abs_roundTo_sub_le (n : ℕ) (q : ℚ) :
    |roundTo n q - q| ≤ 1 / (2 * 10 ^ n) := by
  have hpow : (0:ℚ) < 10 ^ n := by positivity
  have h1 := rhe_le (q * 10 ^ n)
  have h2 := le_rhe (q * 10 ^ n)
  have key : roundTo n q - q = ((rhe (q * 10 ^ n) : ℚ) - q * 10 ^ n) / 10 ^ n := by
    unfold roundTo
    field_simp
    ring
  rw [key, abs_div, abs_of_pos hpow]
  rw [div_le_div_iff₀ hpow (by positivity)]
  have habs : |(rhe (q * 10 ^ n) : ℚ) - q * 10 ^ n| ≤ 1/2 := by
    rw [abs_le]
    constructor <;> linarith
  nlinarith [abs_nonneg ((rhe (q * 10 ^ n) : ℚ) - q * 10 ^ n)]

theorem roundTo_nonneg {n : ℕ} {q : ℚ} (h : 0 ≤ q) : 0 ≤ roundTo n q := by
  have : (0:ℤ) ≤ rhe (q * 10 ^ n) := rhe_nonneg (by positivity)
  unfold roundTo
  positivity

theorem roundTo_le_one {n : ℕ} {q : ℚ} (h : q ≤ 1) : roundTo n q ≤ 1 := by
  have hpow : (0:ℚ) < 10 ^ n := by positivity
  have hq : q * 10 ^ n ≤ ((10 ^ n : ℤ) : ℚ) := by
    push_cast
    nlinarith
  have := rhe_le_of_le_int hq
  unfold roundTo
  rw [div_le_one hpow]
  exact_mod_cast this

/-- Key pairing fact behind `cost + profit = 1`: for an even integer `N`,
round-half-even at `y` and at `N - y` sum to exactly `N`. -/
theorem rhe_add_rhe_sub {N : ℤ} (hN : Even N) (y : ℚ) :
    rhe y + rhe ((N : ℚ) - y) = N := by
  have hf := Int.fract_nonneg y
  have hf1 := Int.fract_lt_one y
  by_cases h0 : Int.fract y = 0
  · -- `y` is an integer
    obtain ⟨m, hm⟩ : ∃ m : ℤ, (m : ℚ) = y := ⟨⌊y⌋, by
      have := Int.floor_add_fract y
      rw [h0] at this
      linarith⟩
    rw [← hm]
    have harg : ((N : ℚ) - (m:ℚ)) = ((N - m : ℤ) : ℚ) := by push_cast; ring
    rw [harg, rhe_intCast, rhe_intCast]
    ring
  · -- `y` is not an integer
    have hfract2 : Int.fract ((N : ℚ) - y) = 1 - Int.fract y := by
      have harg : ((N : ℚ) - y) = (N : ℚ) + (-y) := by ring
      rw [harg, Int.fract_int_add, Int.fract_neg h0]
    have hfloor2 : ⌊(N : ℚ) - y⌋ = N - ⌊y⌋ - 1 := by
      have ha : ((N : ℚ) - y) - ⌊(N : ℚ) - y⌋ = Int.fract ((N : ℚ) - y) := by
        rw [Int.fract]
      have hb : (⌊y⌋ : ℚ) = y - Int.fract y := by linarith [Int.floor_add_fract y]
      rw [hfract2] at ha
      have : (⌊(N : ℚ) - y⌋ : ℚ) = ((N - ⌊y⌋ - 1 : ℤ) : ℚ) := by push_cast; linarith
      exact_mod_cast this
    unfold rhe
    rw [hfract2, hfloor2]
    rcases lt_trichotomy (Int.fract y) (1/2) with hlt | heq | hgt
    · have h1 : ¬ (1 - Int.fract y < 1/2) := by linarith
      have h2 : 1/2 < 1 - Int.fract y := by linarith
      simp only [if_pos hlt, if_neg h1, if_pos h2]
      ring
    · have h1 : ¬ (Int.fract y < 1/2) := by linarith
      have h2 : ¬ (1/2 < Int.fract y) := by linarith
      have h3 : ¬ (1 - Int.fract y < 1/2) := by linarith
      have h4 : ¬ (1/2 < 1 - Int.fract y) := by linarith
      simp only [if_neg h1, if_neg h2, if_neg h3, if_neg h4]
      have hparity : Even (N - ⌊y⌋ - 1) ↔ ¬ Even ⌊y⌋ := by
        have harg : N - ⌊y⌋ - 1 = N - (⌊y⌋ + 1) := by ring
        rw [harg, Int.even_sub, Int.even_add_one]
        constructor
        · intro hiff
          exact hiff.mp hN
        · intro hne
          constructor
          · intro _; exact hne
          · intro _; exact hN
      by_cases hev : Even ⌊y⌋
      · have hodd : ¬ Even (N - ⌊y⌋ - 1) := fun h => (hparity.mp h) hev
        simp only [if_pos hev, if_neg hodd]
        ring
      · have heven : Even (N - ⌊y⌋ - 1) := hparity.mpr hev
        simp only [if_neg hev, if_pos heven]
        ring
    · have h1 : ¬ (Int.fract y < 1/2) := by linarith
      have h2 : 1 - Int.fract y < 1/2 := by linarith
      simp only [if_neg h1, if_pos hgt, if_pos h2]
      ring

/-- `round(x, n) + round(1 - x, n) = 1` exactly, for `n ≥ 1` digits. -/
theorem roundTo_add_roundTo_one_sub {n : ℕ} (hn : 0 < n) (x : ℚ) :
    roundTo n x + roundTo n (1 - x) = 1 := by
  have hpow : (0:ℚ) < 10 ^ n := by positivity
  have hN : Even ((10 : ℤ) ^ n) := by
    cases n with
    | zero => omega
    | succ m =>
      rw [pow_succ]
      exact ⟨10 ^ m * 5, by ring⟩
  have key := rhe_add_rhe_sub (N := 10 ^ n) hN (x * 10 ^ n)
  have harg : ((10 ^ n : ℤ) : ℚ) - x * 10 ^ n = (1 - x) * 10 ^ n := by
    push_cast; ring
  rw [harg] at key
  unfold roundTo
  rw [div_add_div_same, ← Int.cast_add, key]
  push_cast
  field_simp

/-! ## Python dicts as association lists

Python dicts are insertion-ordered; assigning to an existing key updates the
value in place, assigning to a fresh key appends. -/

/-- First value stored under key `k` (dict lookup `d[k]` / `d.get(k)`). -/
def dictGet {κ α : Type} [DecidableEq κ] (d : List (κ × α)) (k : κ) : Option α :=
  (d.find? (fun p => decide (p.1 = k))).map (·.2)

/-- Dict assignment `d[k] = v`. -/
def dictUpd {κ α : Type} [DecidableEq κ] (d : List (κ × α)) (k : κ) (v : α) :
    List (κ × α) :=
  if d.any (fun p => decide (p.1 = k)) then
    d.map (fun p => if p.1 = k then (k, v) else p)
  else d ++ [(k, v)]

theorem mem_dictUpd {κ α : Type} [DecidableEq κ] {d : List (κ × α)} {k : κ} {v : α}
    {p : κ × α} (h : p ∈ dictUpd d k v) :
    p = (k, v) ∨ (p ∈ d ∧ p.1 ≠ k) := by
  unfold dictUpd at h
  split at h
  · obtain ⟨q, hq, hqe⟩ := List.mem_map.mp h
    by_cases hk : q.1 = k
    · rw [if_pos hk] at hqe
      exact Or.inl hqe.symm
    · rw [if_neg hk] at hqe
      exact Or.inr ⟨hqe ▸ hq, hqe ▸ hk⟩
  · rcases List.mem_append.mp h with h1 | h1
    · by_cases hk : p.1 = k
      · exfalso
        rename_i hany
        exact hany (List.any_eq_true.mpr ⟨p, h1, by simp [hk]⟩)
      · exact Or.inr ⟨h1, hk⟩
    · simp only [List.mem_singleton] at h1
      exact Or.inl h1

theorem keys_dictUpd_nodup {κ α : Type} [DecidableEq κ] {d : List (κ × α)} {k : κ}
    {v : α} (h : (d.map (·.1)).Nodup) : ((dictUpd d k v).map (·.1)).Nodup := by
  unfold dictUpd
  split
  · have : (d.map (fun p => if p.1 = k then (k, v) else p)).map (·.1) = d.map (·.1) := by
      rw [List.map_map]
      apply List.map_congr_left
      intro p _
      by_cases hk : p.1 = k
      · simp [hk]
      · simp [hk]
    rw [this]
    exact h
  · rename_i hany
    rw [List.map_append]
    apply List.Nodup.append h (by simp)
    intro a ha hb
    simp only [List.map_cons, List.map_nil, List.mem_singleton] at hb
    subst hb
    obtain ⟨p, hp, hpk⟩ := List.mem_map.mp ha
    exact hany (List.any_eq_true.mpr ⟨p, hp, by simp [hpk]⟩)

theorem dictGet_eq_some_mem {κ α : Type} [DecidableEq κ] {d : List (κ × α)} {k : κ}
    {v : α} (h : dictGet d k = some v) : (k, v) ∈ d := by
  unfold dictGet at h
  obtain ⟨p, hp, hpe⟩ := Option.map_eq_some'.mp h
  have hmem := List.mem_of_find?_eq_some hp
  have hkey := List.find?_some hp
  simp only [decide_eq_true_eq] at hkey
  have : p = (k, v) := by
    cases p
    simp only at hkey hpe
    simp [hkey, hpe]
  exact this ▸ hmem

/-- In a dict with `Nodup` keys, a key determines its value. -/
theorem dict_val_eq_of_nodup {κ α : Type} [DecidableEq κ] {d : List (κ × α)}
    (h : (d.map (·.1)).Nodup) {k : κ} {v w : α}
    (hv : (k, v) ∈ d) (hw : (k, w) ∈ d) : v = w := by
  induction d with
  | nil => cases hv
  | cons p rest ih =>
    simp only [List.map_cons, List.nodup_cons] at h
    rcases List.mem_cons.mp hv with rfl | hv' <;>
      rcases List.mem_cons.mp hw with hw' | hw'
    · cases hw'
      rfl
    · exact absurd (List.mem_map.mpr ⟨(k, w), hw', rfl⟩) h.1
    · rw [← hw'] at h
      exact absurd (List.mem_map.mpr ⟨(k, v), hv', rfl⟩) h.1
    · exact ih h.2 hv' hw'

/-! ## Data model (src/markets/models.py) -/

inductive Platform
  | polymarket
  | kalshi
deriving Repr, DecidableEq

/-- One side of a binary market (`Outcome` dataclass). -/
structure Outcome where
  name : String
  yes_price : ℚ := 0
  no_price : ℚ := 0
  token_id : String := ""
  yes_ask : ℚ := 0
  no_ask : ℚ := 0
  yes_bid : ℚ := 0
  no_bid : ℚ := 0
  yes_depth : ℚ := 0
  no_depth : ℚ := 0
deriving Repr, DecidableEq

/-- A tradable question on one venue (`Market` dataclass).  `expiration`
keeps the raw ISO timestamp string; `datetime` parsing is a library call. -/
structure Market where
  platform : Platform
  id : String
  title : String
  event_title : String := ""
  outcomes : List Outcome := []
  expiration : Option String := none
  volume : ℚ := 0
  url : String := ""
  ticker : String := ""
deriving Repr, DecidableEq

/-- `MatchedMarket` dataclass. -/
structure MatchedMarket where
  kalshi_market : Market
  polymarket_market : Market
  similarity_score : ℚ := 0
  kalshi_outcome : Option Outcome := none
  polymarket_outcome : Option Outcome := none
deriving Repr, DecidableEq

inductive Direction
  | kalshiYesPolyNo
  | polyYesKalshiNo
deriving Repr, DecidableEq

/-- `ArbitrageOpportunity` dataclass.  The wall-clock `timestamp` field is
omitted from the embedding. -/
structure ArbitrageOpportunity where
  matched_market : MatchedMarket
  direction : Direction
  cost : ℚ
  profit : ℚ
  roi : ℚ
  max_size : ℚ := 0
  kalshi_price : ℚ := 0
  polymarket_price : ℚ := 0
deriving Repr, DecidableEq

/-! ## Detector (src/arbitrage/detector.py) -/

/-- The fee-rate fields of `config.settings` used by the detector. -/
structure FeeSettings where
  kalshi_fee_rate : ℚ
  polymarket_fee_rate : ℚ
deriving Repr, DecidableEq

/-- `_effective_cost`: total cost including worst-case fees on the winning
leg. -/
def _effective_cost (yes_price no_price yes_fee_rate no_fee_rate : ℚ) : ℚ :=
  let fee_if_yes_wins := max 0 (1 - yes_price) * yes_fee_rate
  let fee_if_no_wins := max 0 (1 - no_price) * no_fee_rate
  let worst_fee := max fee_if_yes_wins fee_if_no_wins
  yes_price + no_price + worst_fee

/-- `min(a, b)` where `a`/`b` are `float("inf")` when a depth is unknown,
modelled by `none`. -/
def minWithInf (a b : Option ℚ) : Option ℚ :=
  match a, b with
  | none, x => x
  | some x, none => some x
  | some x, some y => some (min x y)

/-- `_check_direction`: check one direction for an arb opportunity. -/
def _check_direction (mm : MatchedMarket) (direction : Direction)
    (yes_outcome no_outcome : Outcome) (yes_fee_rate no_fee_rate min_profit : ℚ) :
    Option ArbitrageOpportunity :=
  let yes_price :=
    if yes_outcome.yes_ask > 0 then yes_outcome.yes_ask else yes_outcome.yes_price
  let no_price :=
    if no_outcome.no_ask > 0 then no_outcome.no_ask else no_outcome.no_price
  if yes_price ≤ 0 ∨ no_price ≤ 0 then none
  else
    let cost := _effective_cost yes_price no_price yes_fee_rate no_fee_rate
    let profit := 1 - cost
    if profit < min_profit then none
    else
      let roi := if cost > 0 then profit / cost * 100 else 0
      let max_size :=
        (minWithInf (if yes_outcome.yes_depth > 0 then some yes_outcome.yes_depth else none)
          (if no_outcome.no_depth > 0 then some no_outcome.no_depth else none)).getD 0
      some
        { matched_market := mm
          direction := direction
          cost := roundTo 4 cost
          profit := roundTo 4 profit
          roi := roundTo 2 roi
          max_size := roundTo 2 max_size
          kalshi_price := if direction = .kalshiYesPolyNo then yes_price else no_price
          polymarket_price := if direction = .kalshiYesPolyNo then no_price else yes_price }

/-- One step of the loop body of `detect_opportunities`: evaluate both
directions of one matched pair and append the hits. -/
def detectStep (fees : FeeSettings) (min_profit : ℚ)
    (acc : List ArbitrageOpportunity) (mm : MatchedMarket) :
    List ArbitrageOpportunity :=
  match mm.kalshi_outcome, mm.polymarket_outcome with
  | some ko, some po =>
    let acc :=
      match _check_direction mm .kalshiYesPolyNo ko po
          fees.kalshi_fee_rate fees.polymarket_fee_rate min_profit with
      | some o => acc ++ [o]
      | none => acc
    match _check_direction mm .polyYesKalshiNo po ko
        fees.polymarket_fee_rate fees.kalshi_fee_rate min_profit with
    | some o => acc ++ [o]
    | none => acc
  | _, _ => acc

/-- `detect_opportunities(matched_markets, min_profit_cents)`.  The final
`sort(key=lambda o: o.roi, reverse=True)` is Python's stable descending
sort; all stable sorts of a total preorder agree, so it is modelled by the
stable `List.insertionSort` under the relation "`roi` not smaller". -/
def detect_opportunities (matched_markets : List MatchedMarket)
    (min_profit_cents : ℚ) (fees : FeeSettings) : List ArbitrageOpportunity :=
  let min_profit := min_profit_cents / 100
  let opportunities := matched_markets.foldl (detectStep fees min_profit) []
  List.insertionSort (fun a b => b.roi ≤ a.roi) opportunities

/-! ## Detector lemmas -/

theorem detectStep_eq_append (fees : FeeSettings) (mp : ℚ)
    (acc : List ArbitrageOpportunity) (mm : MatchedMarket) :
    detectStep fees mp acc mm = acc ++ detectStep fees mp [] mm := by
  unfold detectStep
  cases mm.kalshi_outcome with
  | none => simp
  | some ko =>
    cases mm.polymarket_outcome with
    | none => simp
    | some po =>
      simp only
      cases _check_direction mm .kalshiYesPolyNo ko po
          fees.kalshi_fee_rate fees.polymarket_fee_rate mp <;>
        cases _check_direction mm .polyYesKalshiNo po ko
            fees.polymarket_fee_rate fees.kalshi_fee_rate mp <;>
        simp

theorem foldl_detectStep (fees : FeeSettings) (mp : ℚ)
    (pairs : List MatchedMarket) (acc : List ArbitrageOpportunity) :
    pairs.foldl (detectStep fees mp) acc
      = acc ++ pairs.flatMap (detectStep fees mp []) := by
  induction pairs generalizing acc with
  | nil => simp
  | cons mm rest ih =>
    rw [List.foldl_cons, ih, List.flatMap_cons, detectStep_eq_append]
    simp

theorem mem_detect_opportunities {o : ArbitrageOpportunity}
    {pairs : List MatchedMarket} {mpc : ℚ} {fees : FeeSettings} :
    o ∈ detect_opportunities pairs mpc fees ↔
      ∃ mm ∈ pairs, o ∈ detectStep fees (mpc / 100) [] mm := by
  unfold detect_opportunities
  rw [(List.perm_insertionSort _ _).mem_iff, foldl_detectStep]
  simp [List.mem_flatMap]

theorem mem_detectStep {o : ArbitrageOpportunity} {mm : MatchedMarket}
    {fees : FeeSettings} {mp : ℚ} (h : o ∈ detectStep fees mp [] mm) :
    ∃ ko po, mm.kalshi_outcome = some ko ∧ mm.polymarket_outcome = some po ∧
      (_check_direction mm .kalshiYesPolyNo ko po
          fees.kalshi_fee_rate fees.polymarket_fee_rate mp = some o ∨
        _check_direction mm .polyYesKalshiNo po ko
          fees.polymarket_fee_rate fees.kalshi_fee_rate mp = some o) := by
  unfold detectStep at h
  cases hko : mm.kalshi_outcome with
  | none => rw [hko] at h; cases h
  | some ko =>
    cases hpo : mm.polymarket_outcome with
    | none => rw [hko, hpo] at h; cases h
    | some po =>
      rw [hko, hpo] at h
      refine ⟨ko, po, rfl, rfl, ?_⟩
      simp only at h
      cases hA : _check_direction mm .kalshiYesPolyNo ko po
          fees.kalshi_fee_rate fees.polymarket_fee_rate mp <;>
        cases hB : _check_direction mm .polyYesKalshiNo po ko
            fees.polymarket_fee_rate fees.kalshi_fee_rate mp <;>
        rw [hA, hB] at h <;> simp at h
      · exact Or.inr (by rw [h])
      · exact Or.inl (by rw [h])
      · rcases h with h | h
        · exact Or.inl (by rw [h])
        · exact Or.inr (by rw [h])

/-- Anatomy of a `_check_direction` hit:  the stored fields in terms of the
two effective leg prices. -/
theorem check_direction_eq_some {mm : MatchedMarket} {d : Direction}
    {yo no_ : Outcome} {yfr nfr mp : ℚ} {o : ArbitrageOpportunity}
    (h : _check_direction mm d yo no_ yfr nfr mp = some o) :
    let yp := if yo.yes_ask > 0 then yo.yes_ask else yo.yes_price
    let np := if no_.no_ask > 0 then no_.no_ask else no_.no_price
    0 < yp ∧ 0 < np ∧
    mp ≤ 1 - _effective_cost yp np yfr nfr ∧
    o.matched_market = mm ∧
    o.direction = d ∧
    o.cost = roundTo 4 (_effective_cost yp np yfr nfr) ∧
    o.profit = roundTo 4 (1 - _effective_cost yp np yfr nfr) ∧
    o.max_size = roundTo 2
      ((minWithInf (if yo.yes_depth > 0 then some yo.yes_depth else none)
        (if no_.no_depth > 0 then some no_.no_depth else none)).getD 0) ∧
    o.kalshi_price = (if d = .kalshiYesPolyNo then yp else np) ∧
    o.polymarket_price = (if d = .kalshiYesPolyNo then np else yp) := by
  intro yp np
  unfold _check_direction at h
  by_cases hpos : (if yo.yes_ask > 0 then yo.yes_ask else yo.yes_price) ≤ 0 ∨
      (if no_.no_ask > 0 then no_.no_ask else no_.no_price) ≤ 0
  · rw [if_pos hpos] at h
    cases h
  · rw [if_neg hpos] at h
    push_neg at hpos
    by_cases hmin : 1 - _effective_cost yp np yfr nfr < mp
    · rw [if_pos hmin] at h
      cases h
    · rw [if_neg hmin] at h
      simp only [Option.some.injEq] at h
      subst h
      refine ⟨hpos.1, hpos.2, not_lt.mp hmin, rfl, rfl, rfl, rfl, rfl, rfl, rfl⟩

/-- Backward direction: when the guards pass, `_check_direction` emits. -/
theorem check_direction_emits (mm : MatchedMarket) (d : Direction)
    {yo no_ : Outcome} {yfr nfr mp : ℚ}
    (hyes : 0 < (if yo.yes_ask > 0 then yo.yes_ask else yo.yes_price))
    (hno : 0 < (if no_.no_ask > 0 then no_.no_ask else no_.no_price))
    (hmin : mp ≤ 1 - _effective_cost
      (if yo.yes_ask > 0 then yo.yes_ask else yo.yes_price)
      (if no_.no_ask > 0 then no_.no_ask else no_.no_price) yfr nfr) :
    ∃ o, _check_direction mm d yo no_ yfr nfr mp = some o ∧ o.direction = d := by
  unfold _check_direction
  rw [if_neg (by push_neg; exact ⟨hyes, hno⟩), if_neg (not_lt.mpr hmin)]
  exact ⟨_, rfl, rfl⟩

theorem minWithInf_ifs (yd nd : ℚ) :
    (minWithInf (if yd > 0 then some yd else none)
      (if nd > 0 then some nd else none)).getD 0
      = (if yd > 0 then (if nd > 0 then min yd nd else yd)
         else if nd > 0 then nd else 0) := by
  by_cases h1 : yd > 0 <;> by_cases h2 : nd > 0 <;> simp [minWithInf, h1, h2]

theorem detectStep_mem_of_checkA {mm : MatchedMarket} {ko po : Outcome}
    {fees : FeeSettings} {mp : ℚ} {o : ArbitrageOpportunity}
    (hko : mm.kalshi_outcome = some ko) (hpo : mm.polymarket_outcome = some po)
    (hA : _check_direction mm .kalshiYesPolyNo ko po
      fees.kalshi_fee_rate fees.polymarket_fee_rate mp = some o) :
    o ∈ detectStep fees mp [] mm := by
  unfold detectStep
  rw [hko, hpo]
  simp only [hA]
  cases _check_direction mm .polyYesKalshiNo po ko
      fees.polymarket_fee_rate fees.kalshi_fee_rate mp <;> simp

theorem detectStep_mem_of_checkB {mm : MatchedMarket} {ko po : Outcome}
    {fees : FeeSettings} {mp : ℚ} {o : ArbitrageOpportunity}
    (hko : mm.kalshi_outcome = some ko) (hpo : mm.polymarket_outcome = some po)
    (hB : _check_direction mm .polyYesKalshiNo po ko
      fees.polymarket_fee_rate fees.kalshi_fee_rate mp = some o) :
    o ∈ detectStep fees mp [] mm := by
  unfold detectStep
  rw [hko, hpo]
  simp only [hB]
  cases _check_direction mm .kalshiYesPolyNo ko po
      fees.kalshi_fee_rate fees.polymarket_fee_rate mp <;> simp

/-! ## Claim C1 -/

/-- Claim C1 (amended): for every emitted Opportunity the detector computed
`cost = yes_price + no_price + max(max(0, 1-yes)*yes_fee, max(0, 1-no)*no_fee)`
and `profit = 1 - cost` on the two effective leg prices, and therefore
`cost + profit` equals `1` exactly — the worst-case fee is *inside* `cost`,
so the sum does not differ from 1 by the fee amount. -/
theorem C1_theorem {o : ArbitrageOpportunity} {pairs : List MatchedMarket}
    {mpc : ℚ} {fees : FeeSettings}
    (h : o ∈ detect_opportunities pairs mpc fees) :
    o.cost + o.profit = 1 ∧
    ∃ yp np yfr nfr : ℚ,
      o.cost = roundTo 4 (_effective_cost yp np yfr nfr) ∧
      o.profit = roundTo 4 (1 - _effective_cost yp np yfr nfr) ∧
      _effective_cost yp np yfr nfr
        = yp + np + max (max 0 (1 - yp) * yfr) (max 0 (1 - np) * nfr) ∧
      ((o.direction = .kalshiYesPolyNo ∧ o.kalshi_price = yp ∧ o.polymarket_price = np
          ∧ yfr = fees.kalshi_fee_rate ∧ nfr = fees.polymarket_fee_rate) ∨
        (o.direction = .polyYesKalshiNo ∧ o.kalshi_price = np ∧ o.polymarket_price = yp
          ∧ yfr = fees.polymarket_fee_rate ∧ nfr = fees.kalshi_fee_rate)) := by
  obtain ⟨mm, _, hstep⟩ := mem_detect_opportunities.mp h
  obtain ⟨ko, po, hko, hpo, hAB⟩ := mem_detectStep hstep
  rcases hAB with hA | hB
  · obtain ⟨_, _, _, _, hdir, hcost, hprofit, _, hkp, hpp⟩ := check_direction_eq_some hA
    refine ⟨?_, ?_⟩
    · rw [hcost, hprofit]
      exact roundTo_add_roundTo_one_sub (by norm_num) _
    · refine ⟨_, _, _, _, hcost, hprofit, rfl, Or.inl ⟨hdir, ?_, ?_, rfl, rfl⟩⟩
      · rw [hkp]; simp
      · rw [hpp]; simp
  · obtain ⟨_, _, _, _, hdir, hcost, hprofit, _, hkp, hpp⟩ := check_direction_eq_some hB
    refine ⟨?_, ?_⟩
    · rw [hcost, hprofit]
      exact roundTo_add_roundTo_one_sub (by norm_num) _
    · refine ⟨_, _, _, _, hcost, hprofit, rfl, Or.inr ⟨hdir, ?_, ?_, rfl, rfl⟩⟩
      · rw [hkp]; simp
      · rw [hpp]; simp

/-- Matched pair used for the C1 counterexample and witness: spec §8,
"Concrete scenario 2" (K `yes_ask = 0.45`, P `no_ask = 0.50`). -/
def mmC1 : MatchedMarket :=
  { kalshi_market := { platform := .kalshi, id := "K1", title := "k", ticker := "K1" }
    polymarket_market := { platform := .polymarket, id := "P1", title := "p" }
    similarity_score := 100
    kalshi_outcome := some { name := "k", yes_ask := 45/100 }
    polymarket_outcome := some { name := "p", no_ask := 50/100 } }

def feesC1 : FeeSettings := { kalshi_fee_rate := 7/100, polymarket_fee_rate := 2/100 }

unseal Rat.mul Rat.inv Rat.add Rat.sub in
/-- Claim C1 counterexample: on spec scenario 2 the emitted opportunity has
`cost = 0.9885`, `profit = 0.0115`, so `cost + profit - 1 = 0`, while the
worst-case fee amount is `0.0385`.  The sum differs from 1 by `0`, not by the
fee amount, and the gap `0.0385` far exceeds the 4-decimal rounding slack. -/
theorem C1_counterexample :
    (detect_opportunities [mmC1] 0 feesC1).map (fun o => (o.cost, o.profit))
        = [(9885/10000, 115/10000)] ∧
    (9885/10000 + 115/10000 : ℚ) - 1 = 0 ∧
    max (max 0 (1 - 45/100) * (7/100)) (max 0 (1 - 50/100) * (2/100))
        = (385/10000 : ℚ) ∧
    ¬ (385/10000 - 2/10000 ≤ |(9885/10000 + 115/10000 : ℚ) - 1|) := by
  refine ⟨by decide, by norm_num, by norm_num, by norm_num⟩

def oppC1 : ArbitrageOpportunity :=
  { matched_market := mmC1, direction := .kalshiYesPolyNo,
    cost := 1977/2000, profit := 23/2000, roi := 29/25, max_size := 0,
    kalshi_price := 9/20, polymarket_price := 1/2 }

unseal Rat.mul Rat.inv Rat.add Rat.sub in
/-- Witness for `C1_theorem` at a concrete emitted opportunity. -/
theorem C1_witness :
    oppC1 ∈ detect_opportunities [mmC1] 0 feesC1 ∧ oppC1.cost + oppC1.profit = 1 :=
  ⟨by decide, (C1_theorem (by decide : oppC1 ∈ detect_opportunities [mmC1] 0 feesC1)).1⟩

/-! ## Claim C4 -/

/-- Claim C4 (amended): for every emitted Opportunity, `max_size` is the
minimum of the two legs' depths with an *unknown* (missing-or-zero) depth
treated as `+∞`; it is `0` only when **both** depths are unknown.  A single
unknown depth does not zero it out — the other leg's depth is used. -/
theorem C4_theorem {o : ArbitrageOpportunity} {pairs : List MatchedMarket}
    {mpc : ℚ} {fees : FeeSettings}
    (h : o ∈ detect_opportunities pairs mpc fees) :
    ∃ mm ∈ pairs, ∃ ko po,
      mm.kalshi_outcome = some ko ∧ mm.polymarket_outcome = some po ∧
      ∃ yo no_ : Outcome,
        ((o.direction = .kalshiYesPolyNo ∧ yo = ko ∧ no_ = po) ∨
          (o.direction = .polyYesKalshiNo ∧ yo = po ∧ no_ = ko)) ∧
        o.max_size = roundTo 2
          (if yo.yes_depth > 0 then
            (if no_.no_depth > 0 then min yo.yes_depth no_.no_depth else yo.yes_depth)
          else if no_.no_depth > 0 then no_.no_depth else 0) := by
  obtain ⟨mm, hmm, hstep⟩ := mem_detect_opportunities.mp h
  obtain ⟨ko, po, hko, hpo, hAB⟩ := mem_detectStep hstep
  refine ⟨mm, hmm, ko, po, hko, hpo, ?_⟩
  rcases hAB with hA | hB
  · obtain ⟨_, _, _, _, hdir, _, _, hsize, _, _⟩ := check_direction_eq_some hA
    exact ⟨ko, po, Or.inl ⟨hdir, rfl, rfl⟩, by rw [hsize, minWithInf_ifs]⟩
  · obtain ⟨_, _, _, _, hdir, _, _, hsize, _, _⟩ := check_direction_eq_some hB
    exact ⟨po, ko, Or.inr ⟨hdir, rfl, rfl⟩, by rw [hsize, minWithInf_ifs]⟩

/-- Matched pair used for the C4 counterexample and witness: the YES leg has
depth 100, the NO leg's depth is unknown (0). -/
def mmC4 : MatchedMarket :=
  { kalshi_market := { platform := .kalshi, id := "K4", title := "k", ticker := "K4" }
    polymarket_market := { platform := .polymarket, id := "P4", title := "p" }
    similarity_score := 100
    kalshi_outcome := some { name := "k", yes_ask := 40/100, yes_depth := 100 }
    polymarket_outcome := some { name := "p", no_ask := 40/100, no_depth := 0 } }

def feesC4 : FeeSettings := { kalshi_fee_rate := 0, polymarket_fee_rate := 0 }

unseal Rat.mul Rat.inv Rat.add Rat.sub in
/-- Claim C4 counterexample: with the NO leg's depth unknown (0) and the YES
leg's depth 100, the emitted opportunity has `max_size = 100`, not `0` as the
claim requires when "any one of the two depths is unknown". -/
theorem C4_counterexample :
    (detect_opportunities [mmC4] 0 feesC4).map (fun o => o.max_size) = [100] ∧
    (mmC4.polymarket_outcome.map (fun o => o.no_depth)) = some 0 ∧
    (100 : ℚ) ≠ 0 := by
  refine ⟨by decide, by decide, by norm_num⟩

def oppC4 : ArbitrageOpportunity :=
  { matched_market := mmC4, direction := .kalshiYesPolyNo,
    cost := 4/5, profit := 1/5, roi := 25, max_size := 100,
    kalshi_price := 2/5, polymarket_price := 2/5 }

unseal Rat.mul Rat.inv Rat.add Rat.sub in
/-- Witness for `C4_theorem` at a concrete emitted opportunity. -/
theorem C4_witness :
    oppC4 ∈ detect_opportunities [mmC4] 0 feesC4 ∧
    ∃ mm ∈ [mmC4], ∃ ko po,
      mm.kalshi_outcome = some ko ∧ mm.polymarket_outcome = some po ∧
      ∃ yo no_ : Outcome,
        ((oppC4.direction = .kalshiYesPolyNo ∧ yo = ko ∧ no_ = po) ∨
          (oppC4.direction = .polyYesKalshiNo ∧ yo = po ∧ no_ = ko)) ∧
        oppC4.max_size = roundTo 2
          (if yo.yes_depth > 0 then
            (if no_.no_depth > 0 then min yo.yes_depth no_.no_depth else yo.yes_depth)
          else if no_.no_depth > 0 then no_.no_depth else 0) :=
  ⟨by decide, C4_theorem (by decide : oppC4 ∈ detect_opportunities [mmC4] 0 feesC4)⟩

/-! ## Claim C7 -/

/-- Claim C7 (confirmed): for a matched pair whose primary outcomes are
present and whose effective leg prices for a direction are positive,
`detect_opportunities` emits an Opportunity in that direction **iff** the
direction's profit `1 - cost` is at least `min_profit_cents/100`; the
comparison is non-strict, so a profit exactly at the minimum is emitted. -/
theorem C7_theorem (mm : MatchedMarket) (ko po yo no_ : Outcome) (d : Direction)
    (mpc : ℚ) (fees : FeeSettings) (yfr nfr : ℚ)
    (hko : mm.kalshi_outcome = some ko) (hpo : mm.polymarket_outcome = some po)
    (hdir : (d = .kalshiYesPolyNo ∧ yo = ko ∧ no_ = po
              ∧ yfr = fees.kalshi_fee_rate ∧ nfr = fees.polymarket_fee_rate)
          ∨ (d = .polyYesKalshiNo ∧ yo = po ∧ no_ = ko
              ∧ yfr = fees.polymarket_fee_rate ∧ nfr = fees.kalshi_fee_rate))
    (hyes : 0 < (if yo.yes_ask > 0 then yo.yes_ask else yo.yes_price))
    (hno : 0 < (if no_.no_ask > 0 then no_.no_ask else no_.no_price)) :
    (∃ o ∈ detect_opportunities [mm] mpc fees, o.direction = d) ↔
      mpc / 100 ≤ 1 - _effective_cost
        (if yo.yes_ask > 0 then yo.yes_ask else yo.yes_price)
        (if no_.no_ask > 0 then no_.no_ask else no_.no_price) yfr nfr := by
  constructor
  · rintro ⟨o, ho, hod⟩
    obtain ⟨mm', hmm', hstep⟩ := mem_detect_opportunities.mp ho
    simp only [List.mem_singleton] at hmm'
    subst hmm'
    obtain ⟨ko', po', hko', hpo', hAB⟩ := mem_detectStep hstep
    rw [hko] at hko'
    rw [hpo] at hpo'
    injection hko' with hko2
    injection hpo' with hpo2
    subst hko2
    subst hpo2
    rcases hdir with ⟨hd, hyo, hno_e, hyfr, hnfr⟩ | ⟨hd, hyo, hno_e, hyfr, hnfr⟩ <;>
      subst hd <;> subst hyo <;> subst hno_e <;> subst hyfr <;> subst hnfr
    · rcases hAB with hA | hB
      · exact (check_direction_eq_some hA).2.2.1
      · obtain ⟨_, _, _, _, hdirB, _⟩ := check_direction_eq_some hB
        rw [hdirB] at hod
        cases hod
    · rcases hAB with hA | hB
      · obtain ⟨_, _, _, _, hdirA, _⟩ := check_direction_eq_some hA
        rw [hdirA] at hod
        cases hod
      · exact (check_direction_eq_some hB).2.2.1
  · intro hmin
    rcases hdir with ⟨hd, hyo, hno_e, hyfr, hnfr⟩ | ⟨hd, hyo, hno_e, hyfr, hnfr⟩ <;>
      subst hd <;> subst hyo <;> subst hno_e <;> subst hyfr <;> subst hnfr
    · obtain ⟨o, hA, hod⟩ := check_direction_emits mm .kalshiYesPolyNo
        hyes hno hmin
      exact ⟨o, mem_detect_opportunities.mpr
        ⟨mm, List.mem_singleton_self mm, detectStep_mem_of_checkA hko hpo hA⟩, hod⟩
    · obtain ⟨o, hB, hod⟩ := check_direction_emits mm .polyYesKalshiNo
        hyes hno hmin
      exact ⟨o, mem_detect_opportunities.mpr
        ⟨mm, List.mem_singleton_self mm, detectStep_mem_of_checkB hko hpo hB⟩, hod⟩

/-- Outcomes for the C7 witness: a perfect 0.5/0.5 pair with zero fees and
`min_profit_cents = 0`, so profit is exactly the minimum. -/
def okC7 : Outcome := { name := "k", yes_ask := 1/2 }

def opC7 : Outcome := { name := "p", no_ask := 1/2 }

def mmC7 : MatchedMarket :=
  { kalshi_market := { platform := .kalshi, id := "K7", title := "k", ticker := "K7" }
    polymarket_market := { platform := .polymarket, id := "P7", title := "p" }
    similarity_score := 100
    kalshi_outcome := some okC7
    polymarket_outcome := some opC7 }

def feesC7 : FeeSettings := { kalshi_fee_rate := 0, polymarket_fee_rate := 0 }

/-- Witness for `C7_theorem`: the boundary case profit = minimum = 0 is
emitted. -/
theorem C7_witness :
    ∃ o ∈ detect_opportunities [mmC7] 0 feesC7, o.direction = Direction.kalshiYesPolyNo :=
  (C7_theorem mmC7 okC7 opC7 okC7 opC7 .kalshiYesPolyNo 0 feesC7 0 0 rfl rfl
    (Or.inl ⟨rfl, rfl, rfl, rfl, rfl⟩)
    (by norm_num [okC7]) (by norm_num [opC7])).mpr
    (by norm_num [okC7, opC7, _effective_cost])

/-! ## Matcher (src/matching/matcher.py) -/

/-- Drop leading and trailing whitespace (`str.strip`). -/
def stripWs (cs : List Char) : List Char :=
  ((cs.dropWhile Char.isWhitespace).reverse.dropWhile Char.isWhitespace).reverse

/-- Collapse every run of whitespace to a single space (`re.sub(r"\s+", " ")`). -/
def collapseWs : List Char → List Char
  | [] => []
  | c :: rest =>
    if c.isWhitespace then ' ' :: collapseWs (rest.dropWhile Char.isWhitespace)
    else c :: collapseWs rest
termination_by cs => cs.length
decreasing_by
  · simp only [List.length_cons]
    exact Nat.lt_succ_of_le (List.Sublist.length_le (List.dropWhile_sublist _))
  · simp

/-- `_normalize`: lowercase, strip, replace non-word non-space characters by
a space, collapse whitespace runs, strip.  `\w` is modelled over ASCII
alphanumerics plus underscore. -/
def _normalize (text : String) : String :=
  let cs := (text.data.map Char.toLower)
  let cs := stripWs cs
  let cs := cs.map (fun c =>
    if c.isAlphanum ∨ c = '_' ∨ c.isWhitespace then c else ' ')
  (stripWs (collapseWs cs)).asString

/-- The mutable fields of a `MarketMatcher` relevant to `match()`:
`threshold`, `_cache`, `_excluded`, `_manual_overrides`. -/
structure MatcherState where
  threshold : ℚ
  cache : List (String × MatchedMarket) := []
  excluded : List String := []
  manual_overrides : List (String × String) := []
deriving Repr, DecidableEq

/-- `_build_match`. -/
def _build_match (km pm : Market) (score : ℚ) : MatchedMarket :=
  { kalshi_market := km
    polymarket_market := pm
    similarity_score := score
    kalshi_outcome := km.outcomes.head?
    polymarket_outcome := pm.outcomes.head? }

/-- `{pm.id: pm for pm in polymarket_markets}` — last occurrence wins —
followed by `.get(target_id)`. -/
def polyById (ps : List Market) (pid : String) : Option Market :=
  ps.reverse.find? (fun pm => decide (pm.id = pid))

/-- Accumulator of the manual-override pass. -/
structure OverrideAcc where
  overridden_kalshi : List String := []
  overridden_poly : List String := []
  override_matches : List MatchedMarket := []
  cache : List (String × MatchedMarket) := []
deriving Repr, DecidableEq

/-- Loop body of the manual-override pass of `match()` (matcher.py lines
67-76). -/
def overrideStep (st : MatcherState) (polymarket_markets : List Market)
    (acc : OverrideAcc) (km : Market) : OverrideAcc :=
  match dictGet st.manual_overrides km.id with
  | none => acc
  | some target_id =>
    match polyById polymarket_markets target_id with
    | none => acc
    | some pm =>
      let m := _build_match km pm 100
      { overridden_kalshi := acc.overridden_kalshi ++ [km.id]
        overridden_poly := acc.overridden_poly ++ [pm.id]
        override_matches := acc.override_matches ++ [m]
        cache := dictUpd acc.cache km.id m }

/-- The manual-override pass of `match()` (matcher.py lines 62-76). -/
def overridePass (st : MatcherState) (kalshi_markets polymarket_markets : List Market) :
    OverrideAcc :=
  kalshi_markets.foldl (overrideStep st polymarket_markets) { cache := st.cache }

/-- `rapidfuzz.process.extractOne(query, choices, scorer, score_cutoff)`,
modelled over an abstract scorer: best score wins, earliest index on ties,
`none` when no choice reaches the cutoff. -/
def extractOne (scorer : String → String → ℚ) (query : String)
    (choices : List String) (score_cutoff : ℚ) : Option (ℚ × ℕ) :=
  choices.enum.foldl (fun best (p : ℕ × String) =>
    let s := scorer query p.2
    match best with
    | none => if score_cutoff ≤ s then some (s, p.1) else none
    | some (bs, bi) => if bs < s then some (s, p.1) else some (bs, bi)) none

/-- Accumulator of the fuzzy-matching loop: `best_matches` and the live
cache. -/
structure FuzzyAcc where
  best_matches : List ((String × String) × (ℚ × MatchedMarket)) := []
  cache : List (String × MatchedMarket) := []
deriving Repr, DecidableEq

/-- One iteration of the fuzzy-matching loop of `match()` (matcher.py lines
89-118) for Kalshi market `km`. -/
def fuzzyStep (scorer : String → String → ℚ) (threshold : ℚ)
    (excluded overridden_kalshi : List String)
    (poly_list : List Market) (poly_titles : List String)
    (acc : FuzzyAcc) (km : Market) : FuzzyAcc :=
  if overridden_kalshi.contains km.id ∨ excluded.contains km.id then acc
  else
    match dictGet acc.cache km.id with
    | some cached =>
      let pair_key := (km.id, cached.polymarket_market.id)
      let doIns : Bool :=
        match dictGet acc.best_matches pair_key with
        | none => true
        | some (s0, _) => decide (s0 < cached.similarity_score)
      if doIns then
        { acc with best_matches :=
            dictUpd acc.best_matches pair_key (cached.similarity_score, cached) }
      else acc
    | none =>
      match extractOne scorer (_normalize km.title) poly_titles threshold with
      | none => acc
      | some (score, idx) =>
        match poly_list[idx]? with
        | none => acc  -- unreachable: `extractOne` indexes into `poly_titles`
        | some pm =>
          let pair_key := (km.id, pm.id)
          let doIns : Bool :=
            match dictGet acc.best_matches pair_key with
            | none => true
            | some (s0, _) => decide (s0 < score)
          if doIns then
            let m := _build_match km pm score
            { best_matches := dictUpd acc.best_matches pair_key (score, m)
              cache := dictUpd acc.cache km.id m }
          else acc

/-- First deduplication of `match()`: per Kalshi id, keep the best-scoring
candidate (matcher.py lines 120-124). -/
def kalshiBest (bm : List ((String × String) × (ℚ × MatchedMarket))) :
    List (String × (ℚ × MatchedMarket)) :=
  bm.foldl (fun (acc : List (String × (ℚ × MatchedMarket))) e =>
    match dictGet acc e.1.1 with
    | none => dictUpd acc e.1.1 e.2
    | some s0m => if s0m.1 < e.2.1 then dictUpd acc e.1.1 e.2 else acc) []

/-- Second deduplication of `match()`: per Polymarket id, keep the best
score (matcher.py lines 126-131). -/
def polyBest (kb : List (String × (ℚ × MatchedMarket))) :
    List (String × (ℚ × MatchedMarket)) :=
  kb.foldl (fun (acc : List (String × (ℚ × MatchedMarket))) e =>
    match dictGet acc e.2.2.polymarket_market.id with
    | none => dictUpd acc e.2.2.polymarket_market.id e.2
    | some s0m =>
      if s0m.1 < e.2.1 then dictUpd acc e.2.2.polymarket_market.id e.2 else acc) []

/-- `MarketMatcher.match(kalshi_markets, polymarket_markets)`.  The abstract
`scorer` stands for `fuzz.token_sort_ratio`; the library call itself is not
repository code.  Returns the matched list and the updated `_cache`.
Python's stable descending sort is modelled by `List.insertionSort` (all
stable sorts of a total preorder agree). -/
def matchMarkets (scorer : String → String → ℚ) (st : MatcherState)
    (kalshi_markets polymarket_markets : List Market) :
    List MatchedMarket × List (String × MatchedMarket) :=
  if kalshi_markets = [] ∨ polymarket_markets = [] then ([], st.cache)
  else
    let oacc := overridePass st kalshi_markets polymarket_markets
    let poly_list := polymarket_markets.filter
      (fun pm => !(oacc.overridden_poly.contains pm.id))
    let poly_titles := poly_list.map (fun pm => _normalize pm.title)
    if poly_titles = [] then (oacc.override_matches, oacc.cache)
    else
      let facc := kalshi_markets.foldl
        (fuzzyStep scorer st.threshold st.excluded oacc.overridden_kalshi
          poly_list poly_titles)
        { best_matches := [], cache := oacc.cache }
      let pb := polyBest (kalshiBest facc.best_matches)
      let matched := oacc.override_matches ++ pb.map (fun e => e.2.2)
      (List.insertionSort (fun a b => b.similarity_score ≤ a.similarity_score) matched,
        facc.cache)

/-- `MarketMatcher.clear_cache`. -/
def clear_cache (st : MatcherState) : MatcherState := { st with cache := [] }

/-! ## Claim C3 -/

/-- Claim C3 (amended): a cache entry is an automatic pass-through.  For a
non-overridden, non-excluded Kalshi market with a cache entry, `match()`
seeds the cached pair and `continue`s: it never runs the fuzzy extraction
for that market (the result is the cached pair for *every* scorer), and it
does not check that the cached Polymarket market is still present in this
scan (`ps` is arbitrary).  The cache itself is left unchanged. -/
theorem C3_theorem (scorer : String → String → ℚ) (st : MatcherState)
    (km : Market) (ps : List Market) (c : MatchedMarket)
    (hov : st.manual_overrides = [])
    (hex : ¬ km.id ∈ st.excluded)
    (hc : dictGet st.cache km.id = some c)
    (hps : ps ≠ []) :
    (matchMarkets scorer st [km] ps).1 = [c] ∧
    (matchMarkets scorer st [km] ps).2 = st.cache := by
  have hcond : ¬([km] = [] ∨ ps = []) := by simp [hps]
  have hov_acc : overridePass st [km] ps = { cache := st.cache } := by
    simp [overridePass, overrideStep, hov, dictGet]
  have hexc : ¬((List.contains [] km.id : Bool) = true ∨
      (st.excluded.contains km.id : Bool) = true) := by
    simp only [List.contains_nil, Bool.false_eq_true, false_or]
    simpa using hex
  unfold matchMarkets
  rw [if_neg hcond, hov_acc]
  have htitles : ¬ (ps.map (fun pm => _normalize pm.title) = []) := by
    simp [hps]
  simp only [List.contains_nil, Bool.not_false, List.filter_true]
  rw [if_neg (by simpa using htitles)]
  have hstep : fuzzyStep scorer st.threshold st.excluded [] ps
      (ps.map (fun pm => _normalize pm.title))
      { best_matches := [], cache := st.cache } km
      = { best_matches := [((km.id, c.polymarket_market.id),
            (c.similarity_score, c))], cache := st.cache } := by
    unfold fuzzyStep
    rw [if_neg (by simpa using hexc), hc]
    simp [dictGet, dictUpd]
  simp only [List.foldl_cons, List.foldl_nil, hstep]
  have hkb : kalshiBest [((km.id, c.polymarket_market.id), (c.similarity_score, c))]
      = [(km.id, (c.similarity_score, c))] := by
    simp [kalshiBest, dictGet, dictUpd]
  have hpb : polyBest [(km.id, (c.similarity_score, c))]
      = [(c.polymarket_market.id, (c.similarity_score, c))] := by
    simp [polyBest, dictGet, dictUpd]
  constructor
  · simp only [hkb, hpb]
    simp [List.insertionSort]
  · trivial

/-! ## Claim C2: uniqueness lemmas -/

theorem foldl_inv {α β : Type} {P : α → Prop} (f : α → β → α) (l : List β) (a : α)
    (ha : P a) (hstep : ∀ x b, b ∈ l → P x → P (f x b)) : P (l.foldl f a) := by
  induction l generalizing a with
  | nil => exact ha
  | cons b t ih =>
    exact ih (f a b) (hstep a b (List.mem_cons_self b t) ha)
      (fun x c hc hx => hstep x c (List.mem_cons_of_mem b hc) hx)

/-- In a dict whose *values* are `Nodup`, a value determines its key. -/
theorem dict_key_eq_of_values_nodup {κ α : Type} [DecidableEq κ] {d : List (κ × α)}
    (h : (d.map (·.2)).Nodup) {k1 k2 : κ} {v : α}
    (h1 : (k1, v) ∈ d) (h2 : (k2, v) ∈ d) : k1 = k2 := by
  induction d with
  | nil => cases h1
  | cons p rest ih =>
    simp only [List.map_cons, List.nodup_cons] at h
    rcases List.mem_cons.mp h1 with rfl | h1' <;>
      rcases List.mem_cons.mp h2 with h2' | h2'
    · cases h2'
      rfl
    · exact absurd (List.mem_map.mpr ⟨(k2, v), h2', rfl⟩) h.1
    · rw [← h2'] at h
      exact absurd (List.mem_map.mpr ⟨(k1, v), h1', rfl⟩) h.1
    · exact ih h.2 h1' h2'

theorem mem_of_getElem? {α : Type} {l : List α} {i : ℕ} {a : α}
    (h : l[i]? = some a) : a ∈ l := by
  obtain ⟨hi, rfl⟩ := List.getElem?_eq_some_iff.mp h
  exact List.getElem_mem hi

theorem polyById_spec {ps : List Market} {t : String} {pm : Market}
    (h : polyById ps t = some pm) : pm.id = t ∧ pm ∈ ps := by
  unfold polyById at h
  have hkey := List.find?_some h
  have hmem := List.mem_of_find?_eq_some h
  simp only [decide_eq_true_eq] at hkey
  exact ⟨hkey, List.mem_reverse.mp hmem⟩

/-- Full characterisation of the manual-override fold: there is a list of
"fired" (Kalshi, Polymarket) pairs that explains every output field. -/
theorem ovFold_spec (st : MatcherState) (ps : List Market) :
    ∀ (ks : List Market) (acc : OverrideAcc),
    ∃ fired : List (Market × Market),
      (∀ q ∈ fired, q.1 ∈ ks ∧
        dictGet st.manual_overrides q.1.id = some q.2.id ∧ q.2 ∈ ps) ∧
      List.Sublist (fired.map (fun q => q.1.id)) (ks.map (·.id)) ∧
      (ks.foldl (overrideStep st ps) acc).overridden_kalshi
        = acc.overridden_kalshi ++ fired.map (fun q => q.1.id) ∧
      (ks.foldl (overrideStep st ps) acc).overridden_poly
        = acc.overridden_poly ++ fired.map (fun q => q.2.id) ∧
      (ks.foldl (overrideStep st ps) acc).override_matches
        = acc.override_matches ++ fired.map (fun q => _build_match q.1 q.2 100) ∧
      (∀ p ∈ (ks.foldl (overrideStep st ps) acc).cache,
        p ∈ acc.cache ∨
          (p.1 ∈ fired.map (fun q => q.1.id) ∧ p.2.kalshi_market.id = p.1)) := by
  intro ks
  induction ks with
  | nil =>
    intro acc
    exact ⟨[], by simp, by simp, by simp, by simp, by simp, fun p hp => Or.inl hp⟩
  | cons km t ih =>
    intro acc
    rw [List.foldl_cons]
    cases hget : dictGet st.manual_overrides km.id with
    | none =>
      have hstep : overrideStep st ps acc km = acc := by
        simp [overrideStep, hget]
      rw [hstep]
      obtain ⟨fired, hq, hsub, h1, h2, h3, h4⟩ := ih acc
      refine ⟨fired, ?_, ?_, h1, h2, h3, h4⟩
      · exact fun q hq' => ⟨List.mem_cons_of_mem km (hq q hq').1,
          (hq q hq').2.1, (hq q hq').2.2⟩
      · exact hsub.trans (List.sublist_cons_self km.id (t.map (·.id)))
    | some tid =>
      cases hpm : polyById ps tid with
      | none =>
        have hstep : overrideStep st ps acc km = acc := by
          simp [overrideStep, hget, hpm]
        rw [hstep]
        obtain ⟨fired, hq, hsub, h1, h2, h3, h4⟩ := ih acc
        refine ⟨fired, ?_, ?_, h1, h2, h3, h4⟩
        · exact fun q hq' => ⟨List.mem_cons_of_mem km (hq q hq').1,
            (hq q hq').2.1, (hq q hq').2.2⟩
        · exact hsub.trans (List.sublist_cons_self km.id (t.map (·.id)))
      | some pm =>
        obtain ⟨hpmid, hpmmem⟩ := polyById_spec hpm
        have hstep : overrideStep st ps acc km =
            { overridden_kalshi := acc.overridden_kalshi ++ [km.id]
              overridden_poly := acc.overridden_poly ++ [pm.id]
              override_matches := acc.override_matches ++ [_build_match km pm 100]
              cache := dictUpd acc.cache km.id (_build_match km pm 100) } := by
          simp [overrideStep, hget, hpm]
        rw [hstep]
        obtain ⟨fired, hq, hsub, h1, h2, h3, h4⟩ := ih
          { overridden_kalshi := acc.overridden_kalshi ++ [km.id]
            overridden_poly := acc.overridden_poly ++ [pm.id]
            override_matches := acc.override_matches ++ [_build_match km pm 100]
            cache := dictUpd acc.cache km.id (_build_match km pm 100) }
        refine ⟨(km, pm) :: fired, ?_, ?_, ?_, ?_, ?_, ?_⟩
        · intro q hq'
          rcases List.mem_cons.mp hq' with rfl | hq'
          · exact ⟨List.mem_cons_self km t, by rw [hpmid]; exact hget, hpmmem⟩
          · exact ⟨List.mem_cons_of_mem km (hq q hq').1, (hq q hq').2.1, (hq q hq').2.2⟩
        · simp only [List.map_cons]
          exact hsub.cons₂ km.id
        · rw [h1]
          simp
        · rw [h2]
          simp
        · rw [h3]
          simp
        · intro p hp
          rcases h4 p hp with hpc | ⟨hf, hwf⟩
          · simp only at hpc
            rcases mem_dictUpd hpc with rfl | ⟨hold, _⟩
            · exact Or.inr ⟨by simp, rfl⟩
            · exact Or.inl hold
          · exact Or.inr ⟨by simp only [List.map_cons]; exact List.mem_cons_of_mem _ hf, hwf⟩

/-- Invariant carried through the fuzzy-matching loop: candidate keys match
their pair's market ids, candidates avoid overridden markets, and the live
cache stays well-formed. -/
def FuzzyInv (OK OP : List String) (acc : FuzzyAcc) : Prop :=
  (∀ e ∈ acc.best_matches,
      e.1 = (e.2.2.kalshi_market.id, e.2.2.polymarket_market.id)) ∧
  (∀ e ∈ acc.best_matches, ¬ e.2.2.kalshi_market.id ∈ OK) ∧
  (∀ e ∈ acc.best_matches, ¬ e.2.2.polymarket_market.id ∈ OP) ∧
  (∀ p ∈ acc.cache, p.2.kalshi_market.id = p.1 ∧
      (¬ p.1 ∈ OK → ¬ p.2.polymarket_market.id ∈ OP))

theorem fuzzyInv_ite {OK OP : List String} {acc X : FuzzyAcc} {b : Bool}
    (hX : FuzzyInv OK OP X) (hacc : FuzzyInv OK OP acc) :
    FuzzyInv OK OP (if b = true then X else acc) := by
  cases b
  · simpa using hacc
  · simpa using hX

theorem fuzzyStep_inv {scorer : String → String → ℚ} {threshold : ℚ}
    {excluded OK OP : List String} {poly_list : List Market}
    {poly_titles : List String}
    (hpl : ∀ pm ∈ poly_list, ¬ pm.id ∈ OP)
    {acc : FuzzyAcc} (km : Market) (hinv : FuzzyInv OK OP acc) :
    FuzzyInv OK OP (fuzzyStep scorer threshold excluded OK poly_list poly_titles acc km) := by
  obtain ⟨hA1, hA2, hA3, hA4⟩ := hinv
  unfold fuzzyStep
  by_cases hskip : (OK.contains km.id : Bool) = true ∨ (excluded.contains km.id : Bool) = true
  · rw [if_pos hskip]
    exact ⟨hA1, hA2, hA3, hA4⟩
  · rw [if_neg hskip]
    have hok : ¬ km.id ∈ OK := by
      intro hmem
      exact hskip (Or.inl (by simpa using hmem))
    split
    · -- cache hit: the cached pair is seeded
      rename_i cached hcg
      have hcmem := dictGet_eq_some_mem hcg
      obtain ⟨hcwf, hcop⟩ := hA4 (km.id, cached) hcmem
      simp only at hcwf hcop
      refine fuzzyInv_ite ?_ ⟨hA1, hA2, hA3, hA4⟩
      refine ⟨?_, ?_, ?_, hA4⟩ <;> intro e he <;>
        rcases mem_dictUpd he with rfl | ⟨hold, _⟩
      · simp only
        rw [hcwf]
      · exact hA1 e hold
      · simp only
        rw [hcwf]
        exact hok
      · exact hA2 e hold
      · simp only
        exact hcop hok
      · exact hA3 e hold
    · -- no cache entry: fresh fuzzy extraction
      split
      · exact ⟨hA1, hA2, hA3, hA4⟩
      · rename_i score idx hext
        split
        · exact ⟨hA1, hA2, hA3, hA4⟩
        · rename_i pm hidx
          have hpm : ¬ pm.id ∈ OP := hpl pm (mem_of_getElem? hidx)
          refine fuzzyInv_ite ?_ ⟨hA1, hA2, hA3, hA4⟩
          refine ⟨?_, ?_, ?_, ?_⟩
          · intro e he
            rcases mem_dictUpd he with rfl | ⟨hold, _⟩
            · rfl
            · exact hA1 e hold
          · intro e he
            rcases mem_dictUpd he with rfl | ⟨hold, _⟩
            · exact hok
            · exact hA2 e hold
          · intro e he
            rcases mem_dictUpd he with rfl | ⟨hold, _⟩
            · exact hpm
            · exact hA3 e hold
          · intro p hp
            rcases mem_dictUpd hp with rfl | ⟨hold, _⟩
            · exact ⟨rfl, fun _ => hpm⟩
            · exact hA4 p hold

/-- The first deduplication pass yields `Nodup` keys and only repackages
entries of its input. -/
theorem kalshiBest_spec (bm : List ((String × String) × (ℚ × MatchedMarket))) :
    ((kalshiBest bm).map (·.1)).Nodup ∧
    ∀ e ∈ kalshiBest bm, ∃ e' ∈ bm, e'.1.1 = e.1 ∧ e'.2 = e.2 := by
  unfold kalshiBest
  refine foldl_inv (P := fun (acc : List (String × (ℚ × MatchedMarket))) =>
      (acc.map (·.1)).Nodup ∧
      ∀ e ∈ acc, ∃ e' ∈ bm, e'.1.1 = e.1 ∧ e'.2 = e.2) _ bm []
    ⟨List.nodup_nil, fun e he => absurd he (List.not_mem_nil e)⟩ ?_
  intro acc e he ⟨hnd, hmem⟩
  split
  · refine ⟨keys_dictUpd_nodup hnd, ?_⟩
    intro f hf
    rcases mem_dictUpd hf with rfl | ⟨hold, _⟩
    · exact ⟨e, he, rfl, rfl⟩
    · exact hmem f hold
  · split
    · refine ⟨keys_dictUpd_nodup hnd, ?_⟩
      intro f hf
      rcases mem_dictUpd hf with rfl | ⟨hold, _⟩
      · exact ⟨e, he, rfl, rfl⟩
      · exact hmem f hold
    · exact ⟨hnd, hmem⟩

/-- The second deduplication pass: `Nodup` keys, every entry's key is its
pair's Polymarket id, and values come from the input. -/
theorem polyBest_spec (kb : List (String × (ℚ × MatchedMarket))) :
    ((polyBest kb).map (·.1)).Nodup ∧
    ∀ e ∈ polyBest kb, ∃ e' ∈ kb,
      e.1 = e'.2.2.polymarket_market.id ∧ e.2 = e'.2 := by
  unfold polyBest
  refine foldl_inv (P := fun (acc : List (String × (ℚ × MatchedMarket))) =>
      (acc.map (·.1)).Nodup ∧
      ∀ e ∈ acc, ∃ e' ∈ kb,
        e.1 = e'.2.2.polymarket_market.id ∧ e.2 = e'.2) _ kb []
    ⟨List.nodup_nil, fun e he => absurd he (List.not_mem_nil e)⟩ ?_
  intro acc e he ⟨hnd, hmem⟩
  split
  · refine ⟨keys_dictUpd_nodup hnd, ?_⟩
    intro f hf
    rcases mem_dictUpd hf with rfl | ⟨hold, _⟩
    · exact ⟨e, he, rfl, rfl⟩
    · exact hmem f hold
  · split
    · refine ⟨keys_dictUpd_nodup hnd, ?_⟩
      intro f hf
      rcases mem_dictUpd hf with rfl | ⟨hold, _⟩
      · exact ⟨e, he, rfl, rfl⟩
      · exact hmem f hold
    · exact ⟨hnd, hmem⟩

/-- Uniqueness of the fuzzy output: after the two deduplication passes the
pair list has pairwise-distinct Kalshi ids and Polymarket ids, and avoids
overridden markets. -/
theorem fuzzy_output_nodup {OK OP : List String}
    {bm : List ((String × String) × (ℚ × MatchedMarket))}
    (hA1 : ∀ e ∈ bm, e.1 = (e.2.2.kalshi_market.id, e.2.2.polymarket_market.id))
    (hA2 : ∀ e ∈ bm, ¬ e.2.2.kalshi_market.id ∈ OK)
    (hA3 : ∀ e ∈ bm, ¬ e.2.2.polymarket_market.id ∈ OP) :
    (((polyBest (kalshiBest bm)).map (·.2.2)).map (·.kalshi_market.id)).Nodup ∧
    (((polyBest (kalshiBest bm)).map (·.2.2)).map (·.polymarket_market.id)).Nodup ∧
    (∀ m ∈ (polyBest (kalshiBest bm)).map (·.2.2), ¬ m.kalshi_market.id ∈ OK) ∧
    (∀ m ∈ (polyBest (kalshiBest bm)).map (·.2.2), ¬ m.polymarket_market.id ∈ OP) := by
  obtain ⟨hkbN, hkbP⟩ := kalshiBest_spec bm
  obtain ⟨hpbN, hpbP⟩ := polyBest_spec (kalshiBest bm)
  -- pointwise facts on kalshiBest entries
  have hkb_key : ∀ e ∈ kalshiBest bm, e.1 = e.2.2.kalshi_market.id := by
    intro e he
    obtain ⟨e', he', hk, hv⟩ := hkbP e he
    have := hA1 e' he'
    rw [← hk, ← hv, this]
  have hkb_ok : ∀ e ∈ kalshiBest bm, ¬ e.2.2.kalshi_market.id ∈ OK := by
    intro e he
    obtain ⟨e', he', _, hv⟩ := hkbP e he
    rw [← hv]
    exact hA2 e' he'
  have hkb_op : ∀ e ∈ kalshiBest bm, ¬ e.2.2.polymarket_market.id ∈ OP := by
    intro e he
    obtain ⟨e', he', _, hv⟩ := hkbP e he
    rw [← hv]
    exact hA3 e' he'
  -- pointwise facts on polyBest entries
  have hpb_key : ∀ e ∈ polyBest (kalshiBest bm), e.1 = e.2.2.polymarket_market.id := by
    intro e he
    obtain ⟨e', _, hk, hv⟩ := hpbP e he
    rw [hk, ← hv]
  have hpb_val_kb : ∀ e ∈ polyBest (kalshiBest bm),
      (e.2.2.kalshi_market.id, e.2) ∈ kalshiBest bm := by
    intro e he
    obtain ⟨e', he', _, hv⟩ := hpbP e he
    have hkey := hkb_key e' he'
    have hpair : (e.2.2.kalshi_market.id, e.2) = (e'.1, e'.2) := by
      rw [hv, ← hkey]
    rw [hpair, Prod.mk.eta]
    exact he'
  have hpb_nodup : (polyBest (kalshiBest bm)).Nodup := hpbN.of_map _
  refine ⟨?_, ?_, ?_, ?_⟩
  · -- Kalshi ids pairwise distinct
    rw [List.map_map]
    refine hpb_nodup.map_on ?_
    intro e1 h1 e2 h2 heq
    simp only [Function.comp] at heq
    have hv1 := hpb_val_kb e1 h1
    have hv2 := hpb_val_kb e2 h2
    rw [heq] at hv1
    have hveq : e1.2 = e2.2 := dict_val_eq_of_nodup hkbN hv1 hv2
    have hk1 := hpb_key e1 h1
    have hk2 := hpb_key e2 h2
    have hkeq : e1.1 = e2.1 := by rw [hk1, hk2, hveq]
    calc e1 = (e1.1, e1.2) := rfl
      _ = (e2.1, e2.2) := by rw [hkeq, hveq]
      _ = e2 := rfl
  · -- Polymarket ids pairwise distinct
    have heq : ((polyBest (kalshiBest bm)).map (·.2.2)).map (fun m => m.polymarket_market.id)
        = (polyBest (kalshiBest bm)).map (·.1) := by
      rw [List.map_map]
      apply List.map_congr_left
      intro e he
      exact (hpb_key e he).symm
    rw [heq]
    exact hpbN
  · intro m hm
    obtain ⟨e, he, rfl⟩ := List.mem_map.mp hm
    obtain ⟨e', he', _, hv⟩ := hpbP e he
    rw [hv]
    exact hkb_ok e' he'
  · intro m hm
    obtain ⟨e, he, rfl⟩ := List.mem_map.mp hm
    obtain ⟨e', he', _, hv⟩ := hpbP e he
    rw [hv]
    exact hkb_op e' he'

/-- Claim C2 (amended): provided the input Kalshi ids are pairwise distinct,
every cache entry stores the pair for the Kalshi id it is keyed by, the
override map's target ids are pairwise distinct, and no cached pair points
at an override target, then after `match()` no Kalshi id appears twice and
no Polymarket id appears twice in the output, whatever the fuzzy scorer.
(The counterexample shows the claim fails without the override/cache
conditions.) -/
theorem C2_theorem (scorer : String → String → ℚ) (st : MatcherState)
    (ks ps : List Market)
    (hids : (ks.map (·.id)).Nodup)
    (hcwf : ∀ p ∈ st.cache, p.2.kalshi_market.id = p.1)
    (hovinj : (st.manual_overrides.map (·.2)).Nodup)
    (hcov : ∀ p ∈ st.cache,
      ¬ p.2.polymarket_market.id ∈ st.manual_overrides.map (·.2)) :
    ((matchMarkets scorer st ks ps).1.map (·.kalshi_market.id)).Nodup ∧
    ((matchMarkets scorer st ks ps).1.map (·.polymarket_market.id)).Nodup := by
  obtain ⟨fired, hq, hsub, hOK, hOP, hM, hC⟩ := ovFold_spec st ps ks { cache := st.cache }
  have hOVfold : overridePass st ks ps = ks.foldl (overrideStep st ps) { cache := st.cache } := rfl
  have hOK' : (overridePass st ks ps).overridden_kalshi = fired.map (fun q => q.1.id) := by
    rw [hOVfold, hOK]
    simp
  have hOP' : (overridePass st ks ps).overridden_poly = fired.map (fun q => q.2.id) := by
    rw [hOVfold, hOP]
    simp
  have hM' : (overridePass st ks ps).override_matches
      = fired.map (fun q => _build_match q.1 q.2 100) := by
    rw [hOVfold, hM]
    simp
  have hfiredK : (fired.map (fun q => q.1.id)).Nodup := List.Nodup.sublist hsub hids
  have hfired_nd : fired.Nodup := hfiredK.of_map _
  have hfiredP : (fired.map (fun q => q.2.id)).Nodup := by
    refine hfired_nd.map_on ?_
    intro q1 hq1 q2 hq2 heq
    have hmem1 := dictGet_eq_some_mem (hq q1 hq1).2.1
    have hmem2 := dictGet_eq_some_mem (hq q2 hq2).2.1
    rw [heq] at hmem1
    have hkeys : q1.1.id = q2.1.id := dict_key_eq_of_values_nodup hovinj hmem1 hmem2
    exact List.inj_on_of_nodup_map hfiredK hq1 hq2 hkeys
  have hOPsub : ∀ t ∈ fired.map (fun q => q.2.id), t ∈ st.manual_overrides.map (·.2) := by
    intro t ht
    obtain ⟨q, hqm, rfl⟩ := List.mem_map.mp ht
    exact List.mem_map.mpr ⟨(q.1.id, q.2.id), dictGet_eq_some_mem (hq q hqm).2.1, rfl⟩
  have hovK : (overridePass st ks ps).override_matches.map (·.kalshi_market.id)
      = fired.map (fun q => q.1.id) := by
    rw [hM', List.map_map]
    rfl
  have hovP : (overridePass st ks ps).override_matches.map (·.polymarket_market.id)
      = fired.map (fun q => q.2.id) := by
    rw [hM', List.map_map]
    rfl
  unfold matchMarkets
  split
  · constructor <;> simp
  · dsimp only
    split
    · -- only override matches are returned
      constructor
      · rw [hovK]
        exact hfiredK
      · rw [hovP]
        exact hfiredP
    · -- full result
      have hinit : FuzzyInv (overridePass st ks ps).overridden_kalshi
          (overridePass st ks ps).overridden_poly
          { best_matches := [], cache := (overridePass st ks ps).cache } := by
        refine ⟨fun e he => absurd he (List.not_mem_nil e),
          fun e he => absurd he (List.not_mem_nil e),
          fun e he => absurd he (List.not_mem_nil e), ?_⟩
        intro p hp
        rw [hOVfold] at hp
        rcases hC p hp with hstc | ⟨hfk, hwf⟩
        · refine ⟨hcwf p hstc, ?_⟩
          intro _ hpid
          rw [hOP'] at hpid
          exact hcov p hstc (hOPsub _ hpid)
        · refine ⟨hwf, ?_⟩
          intro hnot
          rw [hOK'] at hnot
          exact absurd hfk hnot
      have hpl : ∀ pm ∈ ps.filter
          (fun pm => !((overridePass st ks ps).overridden_poly.contains pm.id)),
          ¬ pm.id ∈ (overridePass st ks ps).overridden_poly := by
        intro pm hpm
        have := List.of_mem_filter hpm
        simpa using this
      have hfinal : FuzzyInv (overridePass st ks ps).overridden_kalshi
          (overridePass st ks ps).overridden_poly
          (ks.foldl (fuzzyStep scorer st.threshold st.excluded
            (overridePass st ks ps).overridden_kalshi
            (ps.filter (fun pm => !((overridePass st ks ps).overridden_poly.contains pm.id)))
            ((ps.filter (fun pm =>
              !((overridePass st ks ps).overridden_poly.contains pm.id))).map
                (fun pm => _normalize pm.title)))
            { best_matches := [], cache := (overridePass st ks ps).cache }) := by
        refine foldl_inv _ ks _ hinit ?_
        intro x b _ hx
        exact fuzzyStep_inv hpl b hx
      obtain ⟨hFk, hFp, hFok, hFop⟩ :=
        fuzzy_output_nodup hfinal.1 hfinal.2.1 hfinal.2.2.1
      have hperm := List.perm_insertionSort
        (fun (a b : MatchedMarket) => b.similarity_score ≤ a.similarity_score)
        ((overridePass st ks ps).override_matches ++
          (polyBest (kalshiBest (ks.foldl (fuzzyStep scorer st.threshold st.excluded
            (overridePass st ks ps).overridden_kalshi
            (ps.filter (fun pm => !((overridePass st ks ps).overridden_poly.contains pm.id)))
            (List.map (fun pm => _normalize pm.title)
              (ps.filter (fun pm =>
                !((overridePass st ks ps).overridden_poly.contains pm.id)))))
            { best_matches := [], cache := (overridePass st ks ps).cache }).best_matches)).map
              (fun e => e.2.2))
      constructor
      · refine ((hperm.map (·.kalshi_market.id)).nodup_iff).mpr ?_
        rw [List.map_append]
        refine List.Nodup.append ?_ hFk ?_
        · rw [hovK]
          exact hfiredK
        · intro a ha haF
          obtain ⟨m, hmF, rfl⟩ := List.mem_map.mp haF
          apply hFok m hmF
          rw [hovK] at ha
          rw [hOK']
          exact ha
      · refine ((hperm.map (·.polymarket_market.id)).nodup_iff).mpr ?_
        rw [List.map_append]
        refine List.Nodup.append ?_ hFp ?_
        · rw [hovP]
          exact hfiredP
        · intro a ha haF
          obtain ⟨m, hmF, rfl⟩ := List.mem_map.mp haF
          apply hFop m hmF
          rw [hovP] at ha
          rw [hOP']
          exact ha

/-- Inputs for the C2 counterexample: two overrides that target the same
Polymarket market. -/
def stC2 : MatcherState :=
  { threshold := 80, manual_overrides := [("K1", "P9"), ("K2", "P9")] }

def km1C2 : Market := { platform := .kalshi, id := "K1", title := "a", ticker := "K1" }

def km2C2 : Market := { platform := .kalshi, id := "K2", title := "b", ticker := "K2" }

def p9C2 : Market := { platform := .polymarket, id := "P9", title := "c" }

unseal Rat.mul Rat.inv Rat.add Rat.sub in
/-- Claim C2 counterexample: with overrides `{"K1": "P9", "K2": "P9"}` both
override pairs are emitted, so the Polymarket id `P9` appears in two
MatchedPairs of one `match()` output. -/
theorem C2_counterexample :
    ((matchMarkets (fun _ _ => 0) stC2 [km1C2, km2C2] [p9C2]).1).map
      (fun m => m.polymarket_market.id) = ["P9", "P9"] ∧
    ¬ (["P9", "P9"] : List String).Nodup := by
  refine ⟨by decide, by decide⟩

unseal Rat.mul Rat.inv Rat.add Rat.sub in
/-- Witness for `C2_theorem` at a concrete input satisfying its hypotheses. -/
theorem C2_witness :
    (([km1C2].map (fun m => m.id)).Nodup ∧
      ((([] : List (String × String))).map (fun p => p.2)).Nodup) ∧
    ((matchMarkets (fun _ _ => 0) { threshold := 80 } [km1C2] [p9C2]).1.map
        (fun m => m.kalshi_market.id)).Nodup ∧
    ((matchMarkets (fun _ _ => 0) { threshold := 80 } [km1C2] [p9C2]).1.map
        (fun m => m.polymarket_market.id)).Nodup :=
  ⟨⟨by decide, by decide⟩,
    C2_theorem (fun _ _ => 0) { threshold := 80 } [km1C2] [p9C2] (by decide)
      (fun p hp => absurd hp (List.not_mem_nil p))
      (by decide)
      (fun p hp => absurd hp (List.not_mem_nil p))⟩

/-- Inputs for the C3 counterexample: a Kalshi market cached against a
Polymarket market that is absent from the second scan. -/
def kmC3 : Market := { platform := .kalshi, id := "K3", title := "btc", ticker := "K3" }

def pOldC3 : Market := { platform := .polymarket, id := "POLD", title := "btc" }

def pNewC3 : Market := { platform := .polymarket, id := "PNEW", title := "eth" }

def stC3 : MatcherState := { threshold := 80 }

unseal Rat.mul Rat.inv Rat.add Rat.sub in
/-- Claim C3 counterexample: tick 1 matches `K3` to `POLD` (scorer 100) and
caches the pair; in tick 2 `POLD` is gone from the scan and the scorer
(constant 0) is far below the cutoff, yet `match()` still emits the cached
`K3 -> POLD` pair — no presence check and no fuzzy re-extraction happen. -/
theorem C3_counterexample :
    ((matchMarkets (fun _ _ => 0)
        { threshold := 80
          cache := (matchMarkets (fun _ _ => 100) stC3 [kmC3] [pOldC3]).2 }
        [kmC3] [pNewC3]).1).map
      (fun m => (m.kalshi_market.id, m.polymarket_market.id)) = [("K3", "POLD")] ∧
    ¬ ("POLD" ∈ [pNewC3].map (fun pm => pm.id)) ∧
    ¬ ((80 : ℚ) ≤ 0) := by
  refine ⟨by decide, by decide, by norm_num⟩

/-- The cached pair used by the C3 witness. -/
def cPairC3 : MatchedMarket := _build_match kmC3 pOldC3 100

unseal Rat.mul Rat.inv Rat.add Rat.sub in
/-- Witness for `C3_theorem` at a concrete input. -/
theorem C3_witness :
    (matchMarkets (fun _ _ => 0)
      { threshold := 80, cache := [("K3", cPairC3)] } [kmC3] [pNewC3]).1 = [cPairC3] ∧
    (matchMarkets (fun _ _ => 0)
      { threshold := 80, cache := [("K3", cPairC3)] } [kmC3] [pNewC3]).2
        = [("K3", cPairC3)] :=
  C3_theorem (fun _ _ => 0) { threshold := 80, cache := [("K3", cPairC3)] }
    kmC3 [pNewC3] cPairC3 rfl (by decide) (by decide) (by decide)

/-! ## Venue K client (src/markets/kalshi.py) -/

/-- A market object from the venue-K REST API as read by `_parse_market`.
Numeric fields model `float(mkt.get(key, 0) or 0)` — an absent or null
field is `0`.  Timestamp strings are carried verbatim (`datetime`
parsing is a library call). -/
structure KalshiRawMarket where
  ticker : String := ""
  title : String := ""
  yes_price : ℚ := 0
  no_price : ℚ := 0
  last_price : ℚ := 0
  expiration_time : Option String := none
  close_time : Option String := none
  volume : ℚ := 0
  subtitle : String := ""
  event_ticker : String := ""
  series_ticker : String := ""
deriving Repr, DecidableEq

/-- `KalshiClient._parse_market` (kalshi.py lines 204-261). -/
def kalshi_parse_market (mkt : KalshiRawMarket) (event_title : String := "") :
    Option Market :=
  if mkt.ticker = "" ∨ mkt.title = "" then none
  else
    let yes_price := mkt.yes_price
    let no_price := mkt.no_price
    let pq : ℚ × ℚ :=
      if yes_price = 0 ∧ no_price = 0 then
        if mkt.last_price > 0 then
          let yp := if mkt.last_price > 1 then mkt.last_price / 100 else mkt.last_price
          (yp, roundTo 4 (1 - yp))
        else (yes_price, no_price)
      else (yes_price, no_price)
    let yes_price := if pq.1 > 1 then pq.1 / 100 else pq.1
    let no_price := if pq.2 > 1 then pq.2 / 100 else pq.2
    let outcome : Outcome :=
      { name := mkt.title
        yes_price := yes_price
        no_price := no_price
        token_id := mkt.ticker }
    let expiration :=
      match mkt.expiration_time with
      | some s => some s
      | none => mkt.close_time
    let series :=
      if mkt.series_ticker = "" ∧ mkt.event_ticker ≠ "" then
        ((mkt.event_ticker.splitOn "-").headD "")
      else mkt.series_ticker
    let series := if series = "" then (mkt.ticker.splitOn "-").headD "" else series
    let event_slug := if mkt.event_ticker ≠ "" then mkt.event_ticker.toLower
      else mkt.ticker.toLower
    let url := "https://kalshi.com/markets/" ++ series.toLower ++ "/" ++ event_slug
    some
      { platform := .kalshi
        id := mkt.ticker
        title := mkt.title
        event_title := if event_title ≠ "" then event_title
          else if mkt.subtitle ≠ "" then mkt.subtitle else mkt.event_ticker
        outcomes := [outcome]
        expiration := expiration
        volume := mkt.volume
        url := url
        ticker := mkt.ticker }

/-- The parse step of `_fetch_series` for one series (kalshi.py lines
101-104): parse each raw market with the series ticker as event title,
keeping successes. -/
def kalshi_series_parse (raws : List KalshiRawMarket) (series_ticker : String) :
    List Market :=
  raws.filterMap (fun r => kalshi_parse_market r series_ticker)

/-- Inner loop of the events sweep in `fetch_active_markets` (kalshi.py
lines 186-193): add parsed, unseen markets; after each raw, stop when the
total reaches `max_markets`. -/
def kalshi_event_add (max_markets : ℕ) (event_title : String) :
    List KalshiRawMarket → List String → List Market →
      (List String × List Market × Bool)
  | [], seen, markets => (seen, markets, false)
  | raw :: rest, seen, markets =>
    let (seen, markets) :=
      match kalshi_parse_market raw event_title with
      | some market =>
        if seen.contains market.id then (seen, markets)
        else (seen ++ [market.id], markets ++ [market])
      | none => (seen, markets)
    if markets.length ≥ max_markets then (seen, markets, true)
    else kalshi_event_add max_markets event_title rest seen markets

/-- Outer loop of the events sweep (kalshi.py lines 184-195). -/
def kalshi_events_add (max_markets : ℕ) :
    List (String × List KalshiRawMarket) → List String → List Market → List Market
  | [], _, markets => markets
  | (event_title, raws) :: rest, seen, markets =>
    let r := kalshi_event_add max_markets event_title raws seen markets
    if r.2.2 ∨ r.2.1.length ≥ max_markets then r.2.1
    else kalshi_events_add max_markets rest r.1 r.2.1

/-- The merge/dedup part of `KalshiClient.fetch_active_markets` (kalshi.py
lines 174-202): series results first, deduped by id and *not* capped, then
event markets up to `max_markets`. -/
def kalshi_fetch_merge (all_series_markets : List Market)
    (events : List (String × List KalshiRawMarket)) (max_markets : ℕ) :
    List Market :=
  let sm := all_series_markets.foldl
    (fun (p : List String × List Market) m =>
      if p.1.contains m.id then p else (p.1 ++ [m.id], p.2 ++ [m]))
    ([], [])
  kalshi_events_add max_markets events sm.1 sm.2

/-! ## Venue P client (src/markets/polymarket.py) -/

/-- A market object from the Gamma API as read by `_parse_outcomes` /
`fetch_active_markets`.  The `outcomes`/`outcomePrices`/`clobTokenIds`
fields model the result after the defensive `json.loads` of
string-encoded arrays (a parse failure yields `[]`). -/
structure PolyRawMarket where
  id : String := ""
  question : Option String := none
  title : String := ""
  outcomes : List String := []
  outcomePrices : List ℚ := []
  clobTokenIds : List String := []
  volume : ℚ := 0
  conditionId : String := ""
deriving Repr, DecidableEq

/-- `PolymarketClient._parse_outcomes` (polymarket.py lines 109-148). -/
def poly_parse_outcomes (mkt : PolyRawMarket) : List Outcome :=
  mkt.outcomes.enum.map (fun (p : ℕ × String) =>
    let price := mkt.outcomePrices.getD p.1 0
    let token_id := mkt.clobTokenIds.getD p.1 ""
    { name := p.2
      yes_price := price
      no_price := if price ≠ 0 then roundTo 4 (1 - price) else 0
      token_id := token_id })

/-- One Gamma event: title, slug, and its market objects. -/
structure PolyRawEvent where
  title : String := ""
  slug : String := ""
  markets : List PolyRawMarket := []
deriving Repr, DecidableEq

/-- Building one `Market` from a Gamma market object (polymarket.py lines
70-84); unconditional — venue P never drops a market at parse time. -/
def poly_build_market (event_title slug : String) (mkt : PolyRawMarket) : Market :=
  { platform := .polymarket
    id := mkt.id
    title := mkt.question.getD mkt.title
    event_title := event_title
    outcomes := poly_parse_outcomes mkt
    expiration := none
    volume := mkt.volume
    url := "https://polymarket.com/event/" ++ slug
    ticker := mkt.conditionId }

/-- Inner loop over one event's markets (polymarket.py lines 69-86): append
every market, stop once the total reaches `max_markets`. -/
def poly_event_add (max_markets : ℕ) (event : PolyRawEvent) :
    List PolyRawMarket → List Market → (List Market × Bool)
  | [], markets => (markets, false)
  | mkt :: rest, markets =>
    let markets := markets ++ [poly_build_market event.title event.slug mkt]
    if markets.length ≥ max_markets then (markets, true)
    else poly_event_add max_markets event rest markets

/-- Loop over the events of one page (polymarket.py lines 67-88). -/
def poly_page_add (max_markets : ℕ) :
    List PolyRawEvent → List Market → (List Market × Bool)
  | [], markets => (markets, false)
  | ev :: rest, markets =>
    let r := poly_event_add max_markets ev ev.markets markets
    if r.2 ∨ r.1.length ≥ max_markets then (r.1, true)
    else poly_page_add max_markets rest r.1

/-- The collection core of `PolymarketClient.fetch_active_markets`
(polymarket.py lines 35-96): pages of events are consumed while the
market count is below `max_markets`; an empty page ends pagination. -/
def poly_fetch_markets (max_markets : ℕ) :
    List (List PolyRawEvent) → List Market → List Market
  | [], markets => markets
  | page :: rest, markets =>
    if markets.length < max_markets then
      if page = [] then markets
      else
        let r := poly_page_add max_markets page markets
        if r.2 then r.1 else poly_fetch_markets max_markets rest r.1
    else markets

/-! ## Claim C5 -/

theorem clamp_div_bounds {v : ℚ} (h0 : 0 ≤ v) (h1 : v ≤ 100) :
    0 ≤ (if v > 1 then v / 100 else v) ∧ (if v > 1 then v / 100 else v) ≤ 1 := by
  split_ifs with h
  · constructor
    · positivity
    · linarith
  · exact ⟨h0, by linarith [not_lt.mp h]⟩

/-- Bounds for the full venue-K price pipeline of `_parse_market`. -/
theorem kalshi_pipeline_bounds (y n l : ℚ)
    (hy0 : 0 ≤ y) (hy1 : y ≤ 100) (hn0 : 0 ≤ n) (hn1 : n ≤ 100)
    (hl0 : 0 ≤ l) (hl1 : l ≤ 100) :
    let pq : ℚ × ℚ :=
      if y = 0 ∧ n = 0 then
        if l > 0 then
          let yp := if l > 1 then l / 100 else l
          (yp, roundTo 4 (1 - yp))
        else (y, n)
      else (y, n)
    0 ≤ (if pq.1 > 1 then pq.1 / 100 else pq.1) ∧
    (if pq.1 > 1 then pq.1 / 100 else pq.1) ≤ 1 ∧
    0 ≤ (if pq.2 > 1 then pq.2 / 100 else pq.2) ∧
    (if pq.2 > 1 then pq.2 / 100 else pq.2) ≤ 1 := by
  intro pq
  have hcase : (0 ≤ pq.1 ∧ pq.1 ≤ 100) ∧ (0 ≤ pq.2 ∧ pq.2 ≤ 100) := by
    unfold_let pq
    by_cases h1 : y = 0 ∧ n = 0
    · rw [if_pos h1]
      by_cases h2 : l > 0
      · rw [if_pos h2]
        have hyp : 0 ≤ (if l > 1 then l / 100 else l) ∧
            (if l > 1 then l / 100 else l) ≤ 1 := clamp_div_bounds hl0 hl1
        refine ⟨⟨hyp.1, by linarith [hyp.2]⟩, ?_, ?_⟩
        · exact roundTo_nonneg (by linarith [hyp.2])
        · have := roundTo_le_one (n := 4) (q := 1 - (if l > 1 then l / 100 else l))
            (by linarith [hyp.1])
          linarith
      · rw [if_neg h2]
        exact ⟨⟨hy0, hy1⟩, hn0, hn1⟩
    · rw [if_neg h1]
      exact ⟨⟨hy0, hy1⟩, hn0, hn1⟩
  obtain ⟨c1, c2⟩ := clamp_div_bounds hcase.1.1 hcase.1.2
  obtain ⟨c3, c4⟩ := clamp_div_bounds hcase.2.1 hcase.2.2
  exact ⟨c1, c2, c3, c4⟩

/-- Claim C5 (amended): on venue K, stored prices land in `[0, 1]` provided
the incoming `yes/no/last` prices are fractions (0-1) or cents (0-100); on
venue P **no** cents normalization is performed — stored prices are in
`[0, 1]` only when the incoming outcome prices already are. -/
theorem C5_theorem :
    (∀ (mkt : KalshiRawMarket) (et : String) (market : Market),
      0 ≤ mkt.yes_price → mkt.yes_price ≤ 100 →
      0 ≤ mkt.no_price → mkt.no_price ≤ 100 →
      0 ≤ mkt.last_price → mkt.last_price ≤ 100 →
      kalshi_parse_market mkt et = some market →
      ∀ o ∈ market.outcomes,
        0 ≤ o.yes_price ∧ o.yes_price ≤ 1 ∧ 0 ≤ o.no_price ∧ o.no_price ≤ 1) ∧
    (∀ mkt : PolyRawMarket,
      (∀ p ∈ mkt.outcomePrices, 0 ≤ p ∧ p ≤ 1) →
      ∀ o ∈ poly_parse_outcomes mkt,
        0 ≤ o.yes_price ∧ o.yes_price ≤ 1 ∧ 0 ≤ o.no_price ∧ o.no_price ≤ 1) := by
  constructor
  · intro mkt et market hy0 hy1 hn0 hn1 hl0 hl1 h o ho
    unfold kalshi_parse_market at h
    by_cases hg : mkt.ticker = "" ∨ mkt.title = ""
    · rw [if_pos hg] at h
      cases h
    · rw [if_neg hg] at h
      simp only [Option.some.injEq] at h
      subst h
      simp only [List.mem_singleton] at ho
      subst ho
      exact kalshi_pipeline_bounds mkt.yes_price mkt.no_price mkt.last_price
        hy0 hy1 hn0 hn1 hl0 hl1
  · intro mkt hp o ho
    unfold poly_parse_outcomes at ho
    obtain ⟨q, hq, rfl⟩ := List.mem_map.mp ho
    have hprice : 0 ≤ mkt.outcomePrices.getD q.1 0 ∧ mkt.outcomePrices.getD q.1 0 ≤ 1 := by
      rw [List.getD_eq_getElem?_getD]
      cases hge : mkt.outcomePrices[q.1]? with
      | none => simp
      | some p =>
        simp only [Option.getD_some]
        exact hp p (mem_of_getElem? hge)
    refine ⟨hprice.1, hprice.2, ?_, ?_⟩
    · simp only
      split_ifs
      · exact roundTo_nonneg (by linarith [hprice.2])
      · exact le_refl 0
    · simp only
      split_ifs
      · exact roundTo_le_one (by linarith [hprice.1])
      · norm_num

def rawC5 : PolyRawMarket := { id := "PM", outcomes := ["Yes"], outcomePrices := [50] }

unseal Rat.mul Rat.inv Rat.add Rat.sub in
/-- Claim C5 counterexample: a venue-P outcome price of `50` (cents-style)
is stored as-is — not divided by 100 — leaving `yes_price = 50 > 1` and a
negative `no_price = -49`. -/
theorem C5_counterexample :
    (poly_parse_outcomes rawC5).map (fun o => (o.yes_price, o.no_price))
      = [(50, -49)] ∧
    ¬ ((50 : ℚ) ≤ 1) ∧ ¬ ((0 : ℚ) ≤ -49) ∧ (50 : ℚ) ≠ 50 / 100 := by
  refine ⟨by decide, by norm_num, by norm_num, by norm_num⟩

def rawC5P : PolyRawMarket := { id := "PW", outcomes := ["Yes"], outcomePrices := [3/5] }

def oC5 : Outcome := { name := "Yes", yes_price := 3/5, no_price := 2/5, token_id := "" }

unseal Rat.mul Rat.inv Rat.add Rat.sub in
/-- Witness for `C5_theorem` (venue-P part) at a concrete parsed outcome. -/
theorem C5_witness :
    (0 ≤ (3 : ℚ)/5 ∧ (3 : ℚ)/5 ≤ 1) ∧
    (0 ≤ oC5.yes_price ∧ oC5.yes_price ≤ 1 ∧ 0 ≤ oC5.no_price ∧ oC5.no_price ≤ 1) :=
  ⟨by norm_num,
    C5_theorem.2 rawC5P
      (by intro p hp; simp only [rawC5P, List.mem_singleton] at hp; subst hp; norm_num)
      oC5 (by decide)⟩

/-! ## Claim C6 -/

theorem poly_event_add_total (max_markets : ℕ) (ev : PolyRawEvent) :
    ∀ (raws : List PolyRawMarket) (markets : List Market),
      markets.length + raws.length ≤ max_markets →
      (poly_event_add max_markets ev raws markets).1
        = markets ++ raws.map (poly_build_market ev.title ev.slug) := by
  intro raws
  induction raws with
  | nil =>
    intro markets _
    simp [poly_event_add]
  | cons r rest ih =>
    intro markets h
    unfold poly_event_add
    dsimp only
    simp only [List.length_cons] at h
    split
    · -- the cap was reached right after this append: nothing may remain
      rename_i hstop
      simp only [List.length_append, List.length_singleton] at hstop
      have hrest : rest = [] := by
        cases rest with
        | nil => rfl
        | cons a t =>
          simp only [List.length_cons] at h
          omega
      subst hrest
      simp
    · exact (ih (markets ++ [poly_build_market ev.title ev.slug r]) (by
        simp only [List.length_append, List.length_singleton]
        omega)).trans (by simp)

/-- Claim C6 (amended): a venue-K market object is dropped at parse time
**iff** it is missing its ticker or title — a market with no parseable
prices is *not* dropped (it is returned with zero prices); and venue P
drops nothing at parse time: with capacity available, every market object
of a page appears in the fetched list. -/
theorem C6_theorem :
    (∀ (mkt : KalshiRawMarket) (et : String),
      kalshi_parse_market mkt et = none ↔ (mkt.ticker = "" ∨ mkt.title = "")) ∧
    (∀ (ev : PolyRawEvent) (max_markets : ℕ),
      ev.markets.length ≤ max_markets → 0 < max_markets →
      poly_fetch_markets max_markets [[ev]] []
        = ev.markets.map (poly_build_market ev.title ev.slug)) := by
  constructor
  · intro mkt et
    unfold kalshi_parse_market
    constructor
    · intro h
      by_cases hg : mkt.ticker = "" ∨ mkt.title = ""
      · exact hg
      · rw [if_neg hg] at h
        cases h
    · intro hg
      rw [if_pos hg]
  · intro ev max_markets hlen hpos
    unfold poly_fetch_markets
    rw [if_pos (by simpa using hpos)]
    rw [if_neg (by simp)]
    unfold poly_page_add
    dsimp only
    have hev := poly_event_add_total max_markets ev ev.markets [] (by simpa using hlen)
    split
    · simpa using hev
    · rw [poly_fetch_markets]
      simpa using hev

def rawC6 : KalshiRawMarket := { ticker := "T6", title := "No prices here" }

unseal Rat.mul Rat.inv Rat.add Rat.sub in
/-- Claim C6 counterexample: a venue-K market object with a ticker and a
title but **no parseable prices** is not dropped — `fetch_active_markets`
returns it with `yes_price = no_price = 0`. -/
theorem C6_counterexample :
    (kalshi_fetch_merge (kalshi_series_parse [rawC6] "S") [] 10).map
      (fun m => (m.id, m.outcomes.map (fun o => (o.yes_price, o.no_price))))
      = [("T6", [((0 : ℚ), (0 : ℚ))])] ∧
    rawC6.yes_price = 0 ∧ rawC6.no_price = 0 ∧ rawC6.last_price = 0 := by
  refine ⟨by decide, by decide, by decide, by decide⟩

def evC6 : PolyRawEvent := { title := "E", slug := "e", markets := [{ id := "PM6" }] }

/-- Witness for `C6_theorem` at concrete inputs. -/
theorem C6_witness :
    (kalshi_parse_market { ticker := "", title := "x" } "" = none ↔
      (("" : String) = "" ∨ ("x" : String) = "")) ∧
    (evC6.markets.length ≤ 10 ∧ 0 < 10) ∧
    poly_fetch_markets 10 [[evC6]] []
      = evC6.markets.map (poly_build_market evC6.title evC6.slug) :=
  ⟨C6_theorem.1 { ticker := "", title := "x" } "",
    ⟨by decide, by decide⟩,
    C6_theorem.2 evC6 10 (by decide) (by decide)⟩

/-! ## Executor (src/arbitrage/executor.py) -/

/-- The guardrail rejection reasons of `_check_guardrails`.  The Python
code renders these as formatted strings; the embedding keeps them
symbolic. -/
inductive GuardReason
  | disabled
  | dailyLossLimit
  | belowMinProfit
  | cooldown
  | noSize
deriving Repr, DecidableEq

/-- An execution error: a guardrail rejection or a leg-order exception
message. -/
inductive ExecError
  | guard (r : GuardReason)
  | leg (msg : String)
deriving Repr, DecidableEq

/-- `ExecutionRecord` dataclass (wall-clock `executed_at` omitted). -/
structure ExecutionRecord where
  opportunity : ArbitrageOpportunity
  success : Bool := false
  error : Option ExecError := none
  pnl : ℚ := 0
deriving Repr, DecidableEq

/-- The mutable state of `TradeExecutor`.  `last_execution` is a seconds
timestamp; dates are compared as strings, as in the Python code. -/
structure TradeExecutorState where
  enabled : Bool
  max_position_usd : ℚ
  max_daily_loss_usd : ℚ
  min_profit_cents : ℚ
  cooldown_seconds : ℚ := 5
  daily_pnl : ℚ := 0
  daily_reset_date : String := ""
  last_execution : Option ℚ := none
  execution_log : List ExecutionRecord := []
deriving Repr, DecidableEq

/-- `TradeExecutor._reset_daily_if_needed`; `today` is the current UTC
date string. -/
def _reset_daily_if_needed (st : TradeExecutorState) (today : String) :
    TradeExecutorState :=
  if st.daily_reset_date ≠ today then
    { st with daily_pnl := 0, daily_reset_date := today }
  else st

/-- `TradeExecutor._check_guardrails`; returns the rejection reason (if
any) and the state after the daily reset. -/
def _check_guardrails (st : TradeExecutorState) (opp : ArbitrageOpportunity)
    (today : String) (now : ℚ) : Option GuardReason × TradeExecutorState :=
  if ¬ st.enabled then (some .disabled, st)
  else
    let st := _reset_daily_if_needed st today
    if st.daily_pnl < -st.max_daily_loss_usd then (some .dailyLossLimit, st)
    else if opp.profit * 100 < st.min_profit_cents then (some .belowMinProfit, st)
    else
      let cooldown_hit : Bool :=
        match st.last_execution with
        | some t => decide (now - t < st.cooldown_seconds)
        | none => false
      if cooldown_hit then (some .cooldown, st)
      else
        let position_size :=
          if opp.max_size > 0 then min opp.max_size st.max_position_usd
          else st.max_position_usd
        if position_size ≤ 0 then (some .noSize, st)
        else (none, st)

/-- `TradeExecutor.execute`.  `leg_errors` carries the exception messages
raised by the two parallel leg orders (empty = both legs succeeded); the
returned `Bool` records whether leg orders were attempted at all. -/
def execute (st : TradeExecutorState) (opp : ArbitrageOpportunity)
    (today : String) (now : ℚ) (leg_errors : List String) :
    ExecutionRecord × TradeExecutorState × Bool :=
  match _check_guardrails st opp today now with
  | (some r, st') =>
    let record : ExecutionRecord := { opportunity := opp, error := some (.guard r) }
    (record, { st' with execution_log := st'.execution_log ++ [record] }, false)
  | (none, st') =>
    let position_size :=
      if opp.max_size > 0 then min opp.max_size st'.max_position_usd
      else st'.max_position_usd
    match leg_errors with
    | e :: _ =>
      let record : ExecutionRecord := { opportunity := opp, error := some (.leg e) }
      (record, { st' with execution_log := st'.execution_log ++ [record] }, true)
    | [] =>
      let estimated_pnl := opp.profit * position_size
      let record : ExecutionRecord :=
        { opportunity := opp, success := true, pnl := estimated_pnl }
      (record,
        { st' with
          daily_pnl := st'.daily_pnl + estimated_pnl
          last_execution := some now
          execution_log := st'.execution_log ++ [record] }, true)

/-! ## Claim C8 -/

/-- Claim C8 (amended): when a guardrail rejects, `execute` returns a
record with `success = false`, the error set to the guardrail reason, and
`pnl = 0`; the record is appended to the log; no leg order is attempted;
`last_execution` is unchanged; and `daily_pnl` is unchanged **except** for
the UTC-date-boundary reset performed inside the guardrail check itself
(when execution is enabled and the stored date differs from today, the
daily PnL is reset to 0 before the checks). -/
theorem C8_theorem (st : TradeExecutorState) (opp : ArbitrageOpportunity)
    (today : String) (now : ℚ) (leg_errors : List String) (r : GuardReason)
    (st1 : TradeExecutorState)
    (h : _check_guardrails st opp today now = (some r, st1)) :
    let z := execute st opp today now leg_errors
    z.1.success = false ∧
    z.1.error = some (.guard r) ∧
    z.1.pnl = 0 ∧
    z.2.1.execution_log = st.execution_log ++ [z.1] ∧
    z.2.2 = false ∧
    z.2.1.last_execution = st.last_execution ∧
    z.2.1.daily_pnl =
      (if st.enabled ∧ st.daily_reset_date ≠ today then 0 else st.daily_pnl) := by
  intro z
  have hst1 : st1 = (if st.enabled ∧ st.daily_reset_date ≠ today then
      { st with daily_pnl := 0, daily_reset_date := today } else st) := by
    unfold _check_guardrails _reset_daily_if_needed at h
    by_cases he : st.enabled
    · simp only [he, not_true, if_neg, ite_false] at h ⊢
      by_cases hd : st.daily_reset_date ≠ today
      · simp only [hd, if_pos, true_and, ite_true] at h ⊢
        split_ifs at h <;> simp_all
      · simp only [hd, if_neg, false_and, ite_false] at h ⊢
        split_ifs at h <;> simp_all
    · simp only [he] at h ⊢
      simp only [Bool.false_eq_true, not_false_eq_true, if_pos] at h
      simp only [Prod.mk.injEq] at h
      simp [← h.2, Bool.false_eq_true]
  have hz : z = ({ opportunity := opp, error := some (.guard r) },
      { st1 with execution_log := st1.execution_log ++
        [{ opportunity := opp, error := some (.guard r) : ExecutionRecord }] }, false) := by
    unfold_let z
    unfold execute
    rw [h]
  have hlog : st1.execution_log = st.execution_log := by
    rw [hst1]
    split_ifs <;> rfl
  have hlast : st1.last_execution = st.last_execution := by
    rw [hst1]
    split_ifs <;> rfl
  have hpnl : st1.daily_pnl =
      (if st.enabled ∧ st.daily_reset_date ≠ today then 0 else st.daily_pnl) := by
    rw [hst1]
    split_ifs <;> rfl
  rw [hz]
  exact ⟨rfl, rfl, rfl, by simp [hlog], rfl, hlast, hpnl⟩

/-- Executor state for the C8 counterexample: enabled, stale reset date,
accumulated daily PnL, and a minimum profit the opportunity misses. -/
def stC8 : TradeExecutorState :=
  { enabled := true
    max_position_usd := 100
    max_daily_loss_usd := 50
    min_profit_cents := 100
    daily_pnl := 5
    daily_reset_date := "2026-10-11" }

def oppC8 : ArbitrageOpportunity :=
  { matched_market :=
      { kalshi_market := { platform := .kalshi, id := "K8", title := "k", ticker := "K8" }
        polymarket_market := { platform := .polymarket, id := "P8", title := "p" } }
    direction := .kalshiYesPolyNo
    cost := 1
    profit := 0
    roi := 0 }

unseal Rat.mul Rat.inv Rat.add Rat.sub in
/-- Claim C8 counterexample: the guardrail check rejects (profit below
minimum), yet the executor's daily PnL changes from 5 to 0 — the
date-boundary reset inside `_check_guardrails` mutates it even on a
blocked attempt. -/
theorem C8_counterexample :
    (execute stC8 oppC8 "2026-10-12" 0 []).1.error
      = some (.guard .belowMinProfit) ∧
    (execute stC8 oppC8 "2026-10-12" 0 []).1.success = false ∧
    (execute stC8 oppC8 "2026-10-12" 0 []).2.1.daily_pnl = 0 ∧
    stC8.daily_pnl = 5 ∧ (0 : ℚ) ≠ 5 := by
  refine ⟨by decide, by decide, by decide, by decide, by norm_num⟩

/-- The post-reset guardrail state for the C8 witness. -/
def st1C8 : TradeExecutorState :=
  { stC8 with daily_pnl := 0, daily_reset_date := "2026-10-12" }

unseal Rat.mul Rat.inv Rat.add Rat.sub in
/-- Witness for `C8_theorem` at the concrete blocked execution. -/
theorem C8_witness :
    (execute stC8 oppC8 "2026-10-12" 0 []).1.success = false ∧
    (execute stC8 oppC8 "2026-10-12" 0 []).2.2 = false ∧
    (execute stC8 oppC8 "2026-10-12" 0 []).2.1.last_execution = stC8.last_execution :=
  ⟨(C8_theorem stC8 oppC8 "2026-10-12" 0 [] .belowMinProfit st1C8 (by decide)).1,
    (C8_theorem stC8 oppC8 "2026-10-12" 0 [] .belowMinProfit st1C8 (by decide)).2.2.2.2.1,
    (C8_theorem stC8 oppC8 "2026-10-12" 0 [] .belowMinProfit st1C8 (by decide)).2.2.2.2.2.1⟩

/-! ## Venue-K retry helper (kalshi.py lines 67-80) -/

/-- The backoff of one 429 at 0-based `attempt`: `1.5 * (attempt + 1)`
seconds. -/
def retry_wait (attempt : ℕ) : ℚ := 3/2 * ((attempt : ℚ) + 1)

/-- The loop of `_get_with_retry`.  `resp attempt` is the HTTP status code
of the request issued on that (0-based) attempt; `remaining` counts the
loop iterations left (`for attempt in range(5)`).  Returns the recorded
backoff waits and either the 2xx status or the status raised on;
`raise_for_status` (any non-2xx raises) is modelled by `Except.error`.
After exhaustion the final `raise_for_status` fires on the last (429)
response. -/
def retry_go (resp : ℕ → ℕ) : ℕ → ℕ → List ℚ → List ℚ × Except ℕ ℕ
  | 0, _, waits => (waits, Except.error 429)
  | rem + 1, attempt, waits =>
    let s := resp attempt
    if s = 429 then retry_go resp rem (attempt + 1) (waits ++ [retry_wait attempt])
    else if 200 ≤ s ∧ s < 300 then (waits, Except.ok s)
    else (waits, Except.error s)

/-- `KalshiClient._get_with_retry`. -/
def _get_with_retry (resp : ℕ → ℕ) : List ℚ × Except ℕ ℕ :=
  retry_go resp 5 0 []

theorem retry_go_spec (resp : ℕ → ℕ) :
    ∀ (n rem attempt : ℕ) (waits : List ℚ), n < rem →
      (∀ k, k < n → resp (attempt + k) = 429) →
      resp (attempt + n) ≠ 429 →
      retry_go resp rem attempt waits =
        (waits ++ (List.range n).map (fun k => retry_wait (attempt + k)),
          if 200 ≤ resp (attempt + n) ∧ resp (attempt + n) < 300
          then Except.ok (resp (attempt + n))
          else Except.error (resp (attempt + n))) := by
  intro n
  induction n with
  | zero =>
    intro rem attempt waits hlt hall hne
    cases rem with
    | zero => omega
    | succ r =>
      unfold retry_go
      rw [Nat.add_zero] at hne
      rw [if_neg hne]
      simp only [Nat.add_zero, List.range_zero, List.map_nil, List.append_nil]
      split_ifs <;> rfl
  | succ m ih =>
    intro rem attempt waits hlt hall hne
    cases rem with
    | zero => omega
    | succ r =>
      unfold retry_go
      have h0 : resp attempt = 429 := by
        have := hall 0 (by omega)
        rwa [Nat.add_zero] at this
      rw [if_pos h0]
      have hall' : ∀ k, k < m → resp (attempt + 1 + k) = 429 := by
        intro k hk
        have := hall (k + 1) (by omega)
        rwa [show attempt + (k + 1) = attempt + 1 + k by omega] at this
      have hne' : resp (attempt + 1 + m) ≠ 429 := by
        rwa [show attempt + (m + 1) = attempt + 1 + m by omega] at hne
      rw [ih r (attempt + 1) (waits ++ [retry_wait attempt]) (by omega) hall' hne']
      have hidx : attempt + 1 + m = attempt + (m + 1) := by omega
      have hmapeq : (List.range m).map (fun k => retry_wait (attempt + 1 + k))
          = (List.range m).map ((fun k => retry_wait (attempt + k)) ∘ Nat.succ) := by
        apply List.map_congr_left
        intro k _
        simp only [Function.comp]
        congr 1
        omega
      have hwaits : (waits ++ [retry_wait attempt]) ++
          (List.range m).map (fun k => retry_wait (attempt + 1 + k))
          = waits ++ (List.range (m + 1)).map (fun k => retry_wait (attempt + k)) := by
        rw [List.append_assoc, List.range_succ_eq_map, hmapeq]
        simp only [List.map_cons, Nat.add_zero, List.map_map, List.singleton_append]
      rw [hwaits, hidx]

theorem retry_go_allfail (resp : ℕ → ℕ) :
    ∀ (rem attempt : ℕ) (waits : List ℚ),
      (∀ k, k < rem → resp (attempt + k) = 429) →
      retry_go resp rem attempt waits =
        (waits ++ (List.range rem).map (fun k => retry_wait (attempt + k)),
          Except.error 429) := by
  intro rem
  induction rem with
  | zero =>
    intro attempt waits _
    simp [retry_go]
  | succ r ih =>
    intro attempt waits hall
    unfold retry_go
    have h0 : resp attempt = 429 := by
      have := hall 0 (by omega)
      rwa [Nat.add_zero] at this
    rw [if_pos h0]
    rw [ih (attempt + 1) (waits ++ [retry_wait attempt]) (fun k hk => by
      have := hall (k + 1) (by omega)
      rwa [show attempt + (k + 1) = attempt + 1 + k by omega] at this)]
    have hmapeq : (List.range r).map (fun k => retry_wait (attempt + 1 + k))
        = (List.range r).map ((fun k => retry_wait (attempt + k)) ∘ Nat.succ) := by
      apply List.map_congr_left
      intro k _
      simp only [Function.comp]
      congr 1
      omega
    have hwaits : (waits ++ [retry_wait attempt]) ++
        (List.range r).map (fun k => retry_wait (attempt + 1 + k))
        = waits ++ (List.range (r + 1)).map (fun k => retry_wait (attempt + k)) := by
      rw [List.append_assoc, List.range_succ_eq_map, hmapeq]
      simp only [List.map_cons, Nat.add_zero, List.map_map, List.singleton_append]
    rw [hwaits]

/-! ## Claim C9 -/

/-- Claim C9 (confirmed): every 429 waits `1.5 x (attempt number)` seconds
and retries, for up to 5 attempts, with an exception after exhaustion; the
first non-429 response ends the loop immediately — returned if 2xx, raised
otherwise. -/
theorem C9_theorem (resp : ℕ → ℕ) :
    (∀ n, n < 5 → (∀ k, k < n → resp k = 429) → resp n ≠ 429 →
      _get_with_retry resp =
        ((List.range n).map (fun k => retry_wait k),
          if 200 ≤ resp n ∧ resp n < 300
          then Except.ok (resp n) else Except.error (resp n))) ∧
    ((∀ k, k < 5 → resp k = 429) →
      _get_with_retry resp =
        ((List.range 5).map (fun k => retry_wait k), Except.error 429)) := by
  constructor
  · intro n hn hall hne
    unfold _get_with_retry
    have := retry_go_spec resp n 5 0 [] hn
      (fun k hk => by simpa using hall k hk) (by simpa using hne)
    simpa using this
  · intro hall
    unfold _get_with_retry
    have := retry_go_allfail resp 5 0 [] (fun k hk => by simpa using hall k hk)
    simpa using this

/-- Response schedule for the C9 witness: three 429s then a 200 (spec
scenario 5). -/
def respC9 (k : ℕ) : ℕ := if k < 3 then 429 else 200

/-- Witness for `C9_theorem`: three 429s then a 200 give waits 1.5, 3.0,
4.5 and a returned 200. -/
theorem C9_witness :
    _get_with_retry respC9 = ([3/2, 3, 9/2], Except.ok 200) := by
  have h := (C9_theorem respC9).1 3 (by omega) (by decide) (by decide)
  rw [h]
  norm_num [respC9, retry_wait, List.range_succ]

/-! ## Venue-P orderbook enrichment (polymarket.py lines 185-209) -/

/-- One CLOB book level; `price`/`size` model `o.get("price", ...)` /
`o.get("size", 0)` — `none` when the key is absent. -/
structure BookLevel where
  price : Option ℚ := none
  size : Option ℚ := none
deriving Repr, DecidableEq

/-- A CLOB orderbook; a failed or 404 fetch yields the empty book. -/
structure OrderBook where
  bids : List BookLevel := []
  asks : List BookLevel := []
deriving Repr, DecidableEq

/-- `min(asks, key=lambda o: float(o.get("price", 999)))` — first minimum
wins. -/
def min_by_price (levels : List BookLevel) : Option BookLevel :=
  match levels with
  | [] => none
  | x :: xs => some (xs.foldl (fun b a =>
      if a.price.getD 999 < b.price.getD 999 then a else b) x)

/-- `max(bids, key=lambda o: float(o.get("price", 0)))` — first maximum
wins. -/
def max_by_price (levels : List BookLevel) : Option BookLevel :=
  match levels with
  | [] => none
  | x :: xs => some (xs.foldl (fun b a =>
      if b.price.getD 0 < a.price.getD 0 then a else b) x)

/-- Enrichment of one outcome from its CLOB book (the loop body of
`enrich_outcomes_with_orderbook`). -/
def poly_enrich_outcome (book : OrderBook) (o : Outcome) : Outcome :=
  let o1 :=
    match min_by_price book.asks with
    | some best_ask =>
      { o with yes_ask := best_ask.price.getD 0, yes_depth := best_ask.size.getD 0 }
    | none => o
  let o2 :=
    match max_by_price book.bids with
    | some best_bid => { o1 with yes_bid := best_bid.price.getD 0 }
    | none => o1
  { o2 with
    no_ask := if o2.yes_bid ≠ 0 then roundTo 4 (1 - o2.yes_bid) else 0
    no_bid := if o2.yes_ask ≠ 0 then roundTo 4 (1 - o2.yes_ask) else 0
    no_depth := o2.yes_depth }

/-- `PolymarketClient.enrich_outcomes_with_orderbook`: outcomes without a
token id are skipped; `books` maps a token id to its fetched book. -/
def poly_enrich_outcomes_with_orderbook (books : String → OrderBook) (m : Market) :
    Market :=
  { m with
    outcomes := m.outcomes.map (fun o =>
      if o.token_id = "" then o else poly_enrich_outcome (books o.token_id) o) }

/-! ## Claim C10 -/

/-- Claim C10 (confirmed): after venue-P enrichment, every outcome whose
orderbook was fetched (token id present) with a non-empty ask list has
`no_depth = yes_depth` — the NO leg's depth is the size at the best YES
ask, never an independently observed quantity. -/
theorem C10_theorem (books : String → OrderBook) (m : Market) (o : Outcome)
    (ho : o ∈ (poly_enrich_outcomes_with_orderbook books m).outcomes)
    (htok : o.token_id ≠ "")
    (hasks : (books o.token_id).asks ≠ []) :
    o.no_depth = o.yes_depth := by
  unfold poly_enrich_outcomes_with_orderbook at ho
  simp only [List.mem_map] at ho
  obtain ⟨o0, _, rfl⟩ := ho
  by_cases h0 : o0.token_id = ""
  · rw [if_pos h0] at htok ⊢
    exact absurd h0 htok
  · rw [if_neg h0]
    unfold poly_enrich_outcome
    cases min_by_price (books o0.token_id).asks <;>
      cases max_by_price (books o0.token_id).bids <;> rfl

def bookC10 : OrderBook :=
  { bids := [{ price := some (45/100), size := some 10 }]
    asks := [{ price := some (55/100), size := some 30 }] }

def mktC10 : Market :=
  { platform := .polymarket
    id := "P10"
    title := "p"
    outcomes := [{ name := "Yes", yes_price := 1/2, no_price := 1/2, token_id := "tok10" }] }

def outC10 : Outcome :=
  { name := "Yes", yes_price := 1/2, no_price := 1/2, token_id := "tok10"
    yes_ask := 55/100, no_ask := 55/100, yes_bid := 45/100, no_bid := 45/100
    yes_depth := 30, no_depth := 30 }

unseal Rat.mul Rat.inv Rat.add Rat.sub in
/-- Witness for `C10_theorem` at a concrete enriched outcome. -/
theorem C10_witness :
    outC10 ∈ (poly_enrich_outcomes_with_orderbook (fun _ => bookC10) mktC10).outcomes ∧
    outC10.no_depth = outC10.yes_depth :=
  ⟨by decide,
    C10_theorem (fun _ => bookC10) mktC10 outC10 (by decide) (by decide) (by decide)⟩
